import Mathlib

/-! Stereo delay: the `DelayLine` engine.

A shallow embedding of `Source/DelayLine.h` / `Source/DelayLine.cpp` and the
properties of the delay-line engine proved over it.

Modelling conventions
* Sample values (`float`) are exact rationals (`ℚ`): every arithmetic
  expression of `processSample` is kept, evaluated without rounding.
* The delay-to-samples computation of the constructor and of `setReadPos` is
  given twice. `setReadPos`, `reset`, `initMembers`, `DelayLine.new` and
  `setDelay` evaluate it in exact arithmetic with unbounded integers; they
  serve the properties that are stated for exact arithmetic or whose inputs
  are fixed sample counts. `Machine.setReadPos`, `Machine.reset`,
  `Machine.initMembers`, `Machine.new` and `Machine.setDelay` apply the
  conversions of the source: rounding to `double` and to `float`, conversion
  to the 32-bit `int`, and 32-bit `int` arithmetic; they serve the properties
  that quantify over every sample rate or every delay.
* `float* m_buffer` is the list of the allocated slots.  An access outside the
  allocation is undefined in the source; here it makes the operation fail
  (`none`), so every result `some _` certifies that all indices were in range.
* `new float [n]` with a negative `n` throws, so `reset` (and with it the
  constructor) fails for a negative `m_maxDelaySamples`.
-/

namespace StereoDelay

/-- The data members of class `DelayLine` (`DelayLine.h`, private section). -/
structure DelayLine where
  /-- Field `m_sampleFreq`: audio sample rate. -/
  sampleFreq : ℚ
  /-- Field `m_delay`: delay time parameter (msecs). -/
  delay : ℚ
  /-- Field `m_feedback`: feedback parameter. -/
  feedback : ℚ
  /-- Field `m_mix`: mix parameter. -/
  mix : ℚ
  /-- Field `m_bypass`: bypass parameter (true = bypass). -/
  bypass : Bool
  /-- Field `m_readPos`: buffer read position. -/
  readPos : Int
  /-- Field `m_writePos`: buffer write position. -/
  writePos : Int
  /-- Field `m_delaySamples`: number of samples corresponding to `m_delay`. -/
  delaySamples : Int
  /-- Field `m_maxDelaySamples`: maximum number of delayed samples. -/
  maxDelaySamples : Int
  /-- Field `m_maxDelay`: maximum delay time. -/
  maxDelay : ℚ
  /-- Field `m_delayFraction`: fractional delay. -/
  delayFraction : ℚ
  /-- Field `m_buffer`: the allocated slots of the delayed signal buffer. -/
  buffer : List ℚ
  deriving DecidableEq

/-- Read `m_buffer[i]`; fails when `i` is outside the allocation. -/
def readSlot (buf : List ℚ) (i : Int) : Option ℚ :=
  if 0 ≤ i then buf[i.toNat]? else none

/-- Assign `m_buffer[i] = v`; fails when `i` is outside the allocation. -/
def writeSlot (buf : List ℚ) (i : Int) (v : ℚ) : Option (List ℚ) :=
  if 0 ≤ i ∧ i < (buf.length : Int) then some (buf.set i.toNat v) else none

/-- Method `DelayLine::setReadPos` (`DelayLine.cpp` lines 73-83) in exact
arithmetic: `samples` is not rounded to `float` and the integers are unbounded
(`Machine.setReadPos` has the conversions). -/
def setReadPos (d : DelayLine) : DelayLine :=
  let samples : ℚ := d.sampleFreq * (1 / 1000) * d.delay
  let delaySamples : Int := Int.floor samples
  let delayFraction : ℚ := samples - (delaySamples : ℚ)
  let readPos : Int := d.writePos - delaySamples
  { d with
    delaySamples := delaySamples
    delayFraction := delayFraction
    readPos := if readPos < 0 then readPos + d.maxDelaySamples else readPos }

/-- Method `DelayLine::reset` (`DelayLine.cpp` lines 29-37): a fresh zero-filled
buffer of `m_maxDelaySamples` slots, both cursors at 0, then `setReadPos`. -/
def reset (d : DelayLine) : Option DelayLine :=
  if d.maxDelaySamples < 0 then none
  else some (setReadPos { d with
    buffer := List.replicate d.maxDelaySamples.toNat 0
    readPos := 0
    writePos := 0 })

/-- The member initialiser list of the constructor (`DelayLine.cpp` lines
12-19), before its body runs; the buffer is still the null pointer. -/
def initMembers (fs : Int) (delay feedback mix : ℚ) : DelayLine :=
  let maxDelaySamples : Int := Int.ceil ((fs : ℚ) * (1 / 1000) * 2000)
  let delaySamples : Int := Int.floor ((fs : ℚ) * (1 / 1000) * delay)
  { sampleFreq := (fs : ℚ)
    delay := delay
    feedback := feedback
    mix := mix
    bypass := false
    readPos := 0
    writePos := 0
    delaySamples := delaySamples
    maxDelaySamples := maxDelaySamples
    maxDelay := ((maxDelaySamples : ℚ) * 1000) / (fs : ℚ)
    delayFraction := (fs : ℚ) * (1 / 1000) * delay - (delaySamples : ℚ)
    buffer := [] }

/-- The constructor `DelayLine::DelayLine (fs, delay, feedback, mix)`
(`DelayLine.cpp` lines 11-22): member initialisers, then `reset()`. -/
def DelayLine.new (fs : Int) (delay feedback mix : ℚ) : Option DelayLine :=
  reset (initMembers fs delay feedback mix)

/-- Method `DelayLine::setDelay` (`DelayLine.h` line 51). -/
def setDelay (d : DelayLine) (delay : ℚ) : DelayLine :=
  setReadPos { d with delay := delay }

/-- Method `DelayLine::setFeedback` (`DelayLine.h` line 52). -/
def setFeedback (d : DelayLine) (feedback : ℚ) : DelayLine :=
  { d with feedback := feedback / 100 }

/-- Method `DelayLine::setMix` (`DelayLine.h` line 53). -/
def setMix (d : DelayLine) (mix : ℚ) : DelayLine :=
  { d with mix := mix / 100 }

/-- Method `DelayLine::setBypass` (`DelayLine.h` line 54). -/
def setBypass (d : DelayLine) (bypass : Bool) : DelayLine :=
  { d with bypass := bypass }

/-- The delayed, interpolated value of `DelayLine::processSample`
(`DelayLine.cpp` lines 43-61). -/
def delayedValue (d : DelayLine) (input : ℚ) : Option ℚ :=
  if d.delaySamples = 0 then some input
  else
    (readSlot d.buffer d.readPos).bind fun out0 =>
      let out1 : ℚ := if d.readPos = d.writePos ∧ d.delaySamples < 1 then input else out0
      (if d.readPos - 1 > 0 then readSlot d.buffer (d.readPos - 1)
        else readSlot d.buffer (d.maxDelaySamples - 1)).bind fun outPrev =>
        some (d.delayFraction * outPrev + (1 - d.delayFraction) * out1)

/-- Method `DelayLine::processSample` (`DelayLine.cpp` lines 39-71): the returned
sample together with the state after the call. -/
def processSample (d : DelayLine) (input : ℚ) : Option (ℚ × DelayLine) :=
  if d.bypass then some (input, d)
  else
    (delayedValue d input).bind fun out =>
      (writeSlot d.buffer d.writePos (input + d.feedback * out)).bind fun buf =>
        some (d.mix * out + (1 - d.mix) * input,
          { d with
            buffer := buf
            writePos := if d.writePos + 1 ≥ d.maxDelaySamples then 0 else d.writePos + 1
            readPos := if d.readPos + 1 ≥ d.maxDelaySamples then 0 else d.readPos + 1 })

/-- One channel of the per-sample loop of `StereoDelayProcessor::processBlock`
(`PluginProcessor.cpp` lines 42-50): `processSample` applied to the samples in
order; the outputs and the final state. -/
def processSamples (d : DelayLine) : List ℚ → Option (List ℚ × DelayLine)
  | [] => some ([], d)
  | x :: xs =>
    (processSample d x).bind fun r =>
      (processSamples r.2 xs).bind fun rs => some (r.1 :: rs.1, rs.2)

/-- The outputs of `processSamples`. -/
def outputs (d : DelayLine) (xs : List ℚ) : Option (List ℚ) :=
  (processSamples d xs).map Prod.fst

/-- The impulse `1, 0, 0, ...` of `len + 1` samples. -/
def impulse (len : Nat) : List ℚ := 1 :: List.replicate len 0


/-! ## Specification-side predicates -/

/-- Both cursors index a slot of the buffer: `0 ≤ readPos, writePos < maxDelaySamples`. -/
def CursorsInRange (d : DelayLine) : Prop :=
  (0 ≤ d.readPos ∧ d.readPos < d.maxDelaySamples) ∧
    (0 ≤ d.writePos ∧ d.writePos < d.maxDelaySamples)

/-- The read cursor trails the write cursor by the integer delay, modulo the capacity. -/
def CursorRelation (d : DelayLine) : Prop :=
  d.readPos = (d.writePos - d.delaySamples) % d.maxDelaySamples

/-- The buffer has exactly `m_maxDelaySamples` slots (true after every `reset`). -/
def BufferAllocated (d : DelayLine) : Prop :=
  (d.buffer.length : Int) = d.maxDelaySamples

/-- States a client can reach for sample rate `fs`: construction followed by any
sequence of the public operations, every supplied delay lying in `[0, 2000]` ms. -/
inductive Reachable (fs : Int) : DelayLine → Prop
  | construct (delay feedback mix : ℚ) (d : DelayLine) :
      0 ≤ delay → delay ≤ 2000 → DelayLine.new fs delay feedback mix = some d → Reachable fs d
  | reset (d d' : DelayLine) : Reachable fs d → reset d = some d' → Reachable fs d'
  | setDelay (d : DelayLine) (delay : ℚ) :
      Reachable fs d → 0 ≤ delay → delay ≤ 2000 → Reachable fs (setDelay d delay)
  | setFeedback (d : DelayLine) (feedback : ℚ) : Reachable fs d → Reachable fs (setFeedback d feedback)
  | setMix (d : DelayLine) (mix : ℚ) : Reachable fs d → Reachable fs (setMix d mix)
  | setBypass (d : DelayLine) (bypass : Bool) : Reachable fs d → Reachable fs (setBypass d bypass)
  | processSample (d d' : DelayLine) (x y : ℚ) :
      Reachable fs d → processSample d x = some (y, d') → Reachable fs d'

/-- Structural invariant of the states of a line of sample rate `fs` whose
delays all lie in `[0, 2000]` ms. -/
def Valid (fs : Int) (d : DelayLine) : Prop :=
  d.sampleFreq = (fs : ℚ) ∧ d.maxDelaySamples = 2 * fs ∧ BufferAllocated d ∧
    (0 ≤ d.delay ∧ d.delay ≤ 2000) ∧ CursorsInRange d

/-- Every slot of the buffer holds 0. -/
def Silent (d : DelayLine) : Prop :=
  ∀ j : Nat, d.buffer.getD j 0 = 0

/-! ## Auxiliary definitions for the proofs -/

/-- The value `out` of `processSample` when every index is in range, written
with total list accesses. -/
def tapValue (d : DelayLine) (input : ℚ) : ℚ :=
  if d.delaySamples = 0 then input
  else
    d.delayFraction *
        d.buffer.getD (if d.readPos - 1 > 0 then d.readPos - 1 else d.maxDelaySamples - 1).toNat 0 +
      (1 - d.delayFraction) *
        (if d.readPos = d.writePos ∧ d.delaySamples < 1 then input else d.buffer.getD d.readPos.toNat 0)

/-- The state after a non-bypassed `processSample` that wrote `v`. -/
def advance (d : DelayLine) (v : ℚ) : DelayLine :=
  { d with
    buffer := d.buffer.set d.writePos.toNat v
    writePos := if d.writePos + 1 ≥ d.maxDelaySamples then 0 else d.writePos + 1
    readPos := if d.readPos + 1 ≥ d.maxDelaySamples then 0 else d.readPos + 1 }

/-- Number of writes since slot `j` was last written, for write cursor `w` and capacity `M`. -/
def slotAge (w M j : Nat) : Nat :=
  if j < w then w - 1 - j else w + M - 1 - j

/-- The circular buffer of `d` holds the written values `hist` (most recent
first, zero before the first write): slot `j` holds the value of age `slotAge`. -/
def Tracks (d : DelayLine) (hist : List ℚ) : Prop :=
  BufferAllocated d ∧ (0 ≤ d.writePos ∧ d.writePos < d.maxDelaySamples) ∧
    ∀ j : Nat, j < d.buffer.length →
      d.buffer.getD j 0 = hist.getD (slotAge d.writePos.toNat d.buffer.length j) 0

/-- The read cursor as `setReadPos` computes it from the write cursor. -/
def Trails (d : DelayLine) : Prop :=
  d.readPos = if d.writePos - d.delaySamples < 0
    then d.writePos - d.delaySamples + d.maxDelaySamples else d.writePos - d.delaySamples

/-- Reference model of an integer delay of `N` samples with feedback `f` and
mix `mix`, over the list `hist` of the values written so far (most recent first). -/
def echo (N : Nat) (f mix : ℚ) : List ℚ → List ℚ → List ℚ
  | _, [] => []
  | hist, x :: xs =>
    (mix * hist.getD (N - 1) 0 + (1 - mix) * x) ::
      echo N f mix ((x + f * hist.getD (N - 1) 0) :: hist) xs

/-- The values written by an impulse through an `N`-sample delay with feedback
`f`, after `k` samples (most recent first): `f ^ (i / N)` at the multiples `i` of `N`. -/
def echoHistory (N : Nat) (f : ℚ) : Nat → List ℚ
  | 0 => []
  | k + 1 => (if N ∣ k then f ^ (k / N) else 0) :: echoHistory N f k

/-! ## Interleaved processing and delay changes -/

/-- A call made on a playing line: `processSample (x)`, or `setDelay` with the
delay of exactly `N` samples. -/
inductive Call where
  | sample (x : ℚ)
  | delay (N : Nat)

/-- Run a sequence of calls on a line of sample rate `fs`: the outputs of the
`processSample` calls and the final state. The delay of `N` samples is passed
to `setDelay` in milliseconds, `1000 * N / fs`. -/
def runCalls (fs : Int) (d : DelayLine) : List Call → Option (List ℚ × DelayLine)
  | [] => some ([], d)
  | Call.sample x :: cs =>
    (processSample d x).bind fun r =>
      (runCalls fs r.2 cs).bind fun rs => some (r.1 :: rs.1, rs.2)
  | Call.delay N :: cs => runCalls fs (setDelay d (1000 * (N : ℚ) / (fs : ℚ))) cs

/-- The samples fed by a sequence of calls, in order. -/
def inputsOf : List Call → List ℚ
  | [] => []
  | Call.sample x :: cs => x :: inputsOf cs
  | Call.delay _ :: cs => inputsOf cs

/-- The outputs expected of a sequence of calls over the whole input `xs`:
the sample of index `k`, processed while the delay in force is `N` samples,
gives `xs[k - N]`, and 0 when `k < N`. -/
def expectedLive (xs : List ℚ) : Nat → Nat → List Call → List ℚ
  | _, _, [] => []
  | N, k, Call.sample _ :: cs =>
    (if k < N then 0 else xs.getD (k - N) 0) :: expectedLive xs N (k + 1) cs
  | _, k, Call.delay N :: cs => expectedLive xs N k cs

/-! ## The processor -/

/-- The data members of class `StereoDelayProcessor` (`PluginProcessor.h`,
private section). -/
structure StereoDelayProcessor where
  /-- Field `m_numParams`: number of processor parameters. -/
  numParams : Int
  /-- Field `m_delay`: delay time parameter (msecs). -/
  delay : ℚ
  /-- Field `m_feedback`: feedback parameter (%). -/
  feedback : ℚ
  /-- Field `m_mix`: mix parameter (%). -/
  mix : ℚ
  /-- Field `m_bypass`: bypass parameter (true = bypass). -/
  bypass : Bool
  /-- Field `m_delayChannel0`: the delay line of the first channel. -/
  delayChannel0 : DelayLine
  /-- Field `m_delayChannel1`: the delay line of the second channel. -/
  delayChannel1 : DelayLine

/-- Enumerator `DELAY` of `enum Param` (`PluginProcessor.h` line 26). -/
def DELAY : Int := 0

/-- Enumerator `FEEDBACK` of `enum Param`. -/
def FEEDBACK : Int := 1

/-- Enumerator `MIX` of `enum Param`. -/
def MIX : Int := 2

/-- Enumerator `BYPASS` of `enum Param`. -/
def BYPASS : Int := 3

/-- The constructor `StereoDelayProcessor::StereoDelayProcessor`
(`PluginProcessor.cpp` lines 10-29); both channels are default-constructed, the
default arguments of `DelayLine` being `fs = 44100`, `delay = 0`,
`feedback = 0`, `mix = 0.5` (`DelayLine.h` line 29). -/
def StereoDelayProcessor.new : Option StereoDelayProcessor :=
  (DelayLine.new 44100 0 0 (1 / 2)).bind fun channel0 =>
    (DelayLine.new 44100 0 0 (1 / 2)).bind fun channel1 =>
      some
        { numParams := 4
          delay := 0
          feedback := 0
          mix := 50
          bypass := false
          delayChannel0 := channel0
          delayChannel1 := channel1 }

/-- Method `StereoDelayProcessor::getParameter` (`PluginProcessor.cpp` lines 68-83). -/
def StereoDelayProcessor.getParameter (p : StereoDelayProcessor) (param : Int) : ℚ :=
  if param = DELAY then p.delay
  else if param = FEEDBACK then p.feedback
  else if param = MIX then p.mix
  else if param = BYPASS then (if p.bypass then 1 else 0)
  else 0

/-- Method `StereoDelayProcessor::setParameter` (`PluginProcessor.cpp` lines 85-112). -/
def StereoDelayProcessor.setParameter (p : StereoDelayProcessor) (param : Int) (val : ℚ) :
    StereoDelayProcessor :=
  if param = DELAY then
    { p with
      delay := val
      delayChannel0 := setDelay p.delayChannel0 val
      delayChannel1 := setDelay p.delayChannel1 val }
  else if param = FEEDBACK then
    { p with
      feedback := val
      delayChannel0 := setFeedback p.delayChannel0 val
      delayChannel1 := setFeedback p.delayChannel1 val }
  else if param = MIX then
    { p with
      mix := val
      delayChannel0 := setMix p.delayChannel0 val
      delayChannel1 := setMix p.delayChannel1 val }
  else if param = BYPASS then
    { p with
      bypass := decide (val ≠ 0)
      delayChannel0 := setBypass p.delayChannel0 (decide (val ≠ 0))
      delayChannel1 := setBypass p.delayChannel1 (decide (val ≠ 0)) }
  else p

/-- The parameters held by an engine channel `c` are those the processor `p` reports. -/
def ChannelAgrees (p : StereoDelayProcessor) (c : DelayLine) : Prop :=
  c.delay = p.getParameter DELAY ∧ c.feedback = p.getParameter FEEDBACK / 100 ∧
    c.mix = p.getParameter MIX / 100 ∧ (c.bypass = true ↔ p.getParameter BYPASS ≠ 0)

/-- Both channels hold the same parameters, and these agree with `getParameter`. -/
def ParametersAgree (p : StereoDelayProcessor) : Prop :=
  ChannelAgrees p p.delayChannel0 ∧ ChannelAgrees p p.delayChannel1 ∧
    p.delayChannel0.delay = p.delayChannel1.delay ∧
    p.delayChannel0.feedback = p.delayChannel1.feedback ∧
    p.delayChannel0.mix = p.delayChannel1.mix ∧
    p.delayChannel0.bypass = p.delayChannel1.bypass

/-! ## Machine arithmetic

The conversions that `DelayLine.cpp` applies around the delay-to-samples
computation, made explicit: rounding to `double` and to `float` (IEEE 754
binary64 and binary32, round to nearest, ties to even; the exponent range is
not limited, so neither overflow to infinity nor subnormal numbers occur),
the conversion to the 32-bit `int`, and 32-bit `int` arithmetic. -/

/-- Round to the nearest integer, ties to the even one. -/
def roundHalfEven (x : ℚ) : Int :=
  if x - (Int.floor x : ℚ) < 1 / 2 then Int.floor x
  else if 1 / 2 < x - (Int.floor x : ℚ) then Int.floor x + 1
  else if Int.floor x % 2 = 0 then Int.floor x
  else Int.floor x + 1

/-- The spacing of the binary floating-point numbers with `p` significant bits
around `x`: `2 ^ (e - (p - 1))` where `2 ^ e ≤ |x| < 2 ^ (e + 1)`. -/
def ulp (p : Nat) (x : ℚ) : ℚ :=
  (2 : ℚ) ^ (Int.log 2 |x| - ((p : Int) - 1))

/-- Round to the nearest binary floating-point number with `p` significant
bits, ties to the even significand. -/
def roundBinary (p : Nat) (x : ℚ) : ℚ :=
  if x = 0 then 0 else (roundHalfEven (x / ulp p x) : ℚ) * ulp p x

/-- Round to `double` (53 significant bits). -/
def toDouble (x : ℚ) : ℚ := roundBinary 53 x

/-- Round to `float` (24 significant bits). -/
def toFloat (x : ℚ) : ℚ := roundBinary 24 x

/-- Conversion of an integral floating-point value to the 32-bit `int`. Out of
range the conversion is undefined in C++; the value taken here is the one the
x86 conversion instruction delivers, `INT_MIN`. -/
def toInt (z : Int) : Int :=
  if -2147483648 ≤ z ∧ z < 2147483648 then z else -2147483648

/-- The result of 32-bit `int` arithmetic: the exact result reduced modulo
`2 ^ 32` into `[-2 ^ 31, 2 ^ 31)`. Within the range this is the exact result;
signed overflow is undefined in C++, and the value taken here is the one
two's-complement hardware delivers. -/
def wrapInt (z : Int) : Int :=
  (z + 2147483648) % 4294967296 - 2147483648

/-- The `double` literal `1e-3`. -/
def milli : ℚ := toDouble (1 / 1000)

/-- The double-precision product `m_sampleFreq*1e-3*m_delay` (`DelayLine.cpp`
lines 15, 16 and 76). -/
def samplesDouble (sampleFreq delay : ℚ) : ℚ :=
  toDouble (toDouble (sampleFreq * milli) * delay)

/-- Method `DelayLine::setReadPos` (`DelayLine.cpp` lines 73-83) with its
conversions: the product is computed in `double` and narrowed to the `float`
`samples`; `floor (samples)` is converted to `int`; the fraction is a `float`
difference; the read position is 32-bit `int` arithmetic. -/
def Machine.setReadPos (d : DelayLine) : DelayLine :=
  let samples : ℚ := toFloat (samplesDouble d.sampleFreq d.delay)
  let delaySamples : Int := toInt (Int.floor samples)
  let delayFraction : ℚ := toFloat (samples - toFloat (delaySamples : ℚ))
  let readPos : Int := wrapInt (d.writePos - delaySamples)
  { d with
    delaySamples := delaySamples
    delayFraction := delayFraction
    readPos := if readPos < 0 then wrapInt (readPos + d.maxDelaySamples) else readPos }

/-- Method `DelayLine::reset` (`DelayLine.cpp` lines 29-37) over `Machine.setReadPos`. -/
def Machine.reset (d : DelayLine) : Option DelayLine :=
  if d.maxDelaySamples < 0 then none
  else some (Machine.setReadPos { d with
    buffer := List.replicate d.maxDelaySamples.toNat 0
    readPos := 0
    writePos := 0 })

/-- The member initialiser list of the constructor (`DelayLine.cpp` lines
12-19) with its conversions: `floor` and `ceil` of the double-precision
products converted to `int`, `m_maxDelay` in `float` arithmetic, the fraction
a `double` difference narrowed to `float`. -/
def Machine.initMembers (fs : Int) (delay feedback mix : ℚ) : DelayLine :=
  let maxDelaySamples : Int := toInt (Int.ceil (samplesDouble (fs : ℚ) 2000))
  let delaySamples : Int := toInt (Int.floor (samplesDouble (fs : ℚ) delay))
  { sampleFreq := (fs : ℚ)
    delay := delay
    feedback := feedback
    mix := mix
    bypass := false
    readPos := 0
    writePos := 0
    delaySamples := delaySamples
    maxDelaySamples := maxDelaySamples
    maxDelay := toFloat (toFloat (toFloat (maxDelaySamples : ℚ) * 1000) / toFloat (fs : ℚ))
    delayFraction := toFloat (toDouble (samplesDouble (fs : ℚ) delay - (delaySamples : ℚ)))
    buffer := [] }

/-- The constructor `DelayLine::DelayLine` (`DelayLine.cpp` lines 11-22) over
`Machine.initMembers` and `Machine.reset`. -/
def Machine.new (fs : Int) (delay feedback mix : ℚ) : Option DelayLine :=
  Machine.reset (Machine.initMembers fs delay feedback mix)

/-- Method `DelayLine::setDelay` (`DelayLine.h` line 51) over `Machine.setReadPos`. -/
def Machine.setDelay (d : DelayLine) (delay : ℚ) : DelayLine :=
  Machine.setReadPos { d with delay := delay }

/-- States a client can reach for sample rate `fs` under machine arithmetic:
construction followed by any sequence of the public operations, every supplied
delay satisfying `admissible`. Sample values are exact; the cursors and the
integer delay do not depend on them. -/
inductive Machine.Reachable (fs : Int) (admissible : ℚ → Prop) : DelayLine → Prop
  | construct (delay feedback mix : ℚ) (d : DelayLine) :
      admissible delay → Machine.new fs delay feedback mix = some d →
      Machine.Reachable fs admissible d
  | reset (d d' : DelayLine) :
      Machine.Reachable fs admissible d → Machine.reset d = some d' →
      Machine.Reachable fs admissible d'
  | setDelay (d : DelayLine) (delay : ℚ) :
      Machine.Reachable fs admissible d → admissible delay →
      Machine.Reachable fs admissible (Machine.setDelay d delay)
  | setFeedback (d : DelayLine) (feedback : ℚ) :
      Machine.Reachable fs admissible d → Machine.Reachable fs admissible (setFeedback d feedback)
  | setMix (d : DelayLine) (mix : ℚ) :
      Machine.Reachable fs admissible d → Machine.Reachable fs admissible (setMix d mix)
  | setBypass (d : DelayLine) (bypass : Bool) :
      Machine.Reachable fs admissible d → Machine.Reachable fs admissible (setBypass d bypass)
  | processSample (d d' : DelayLine) (x y : ℚ) :
      Machine.Reachable fs admissible d → processSample d x = some (y, d') →
      Machine.Reachable fs admissible d'

/-- Structural invariant of the machine states of a line of sample rate `fs`
whose delays all lie in `[0, 2000]` ms. -/
def Machine.Valid (fs : Int) (d : DelayLine) : Prop :=
  d.sampleFreq = (fs : ℚ) ∧ d.maxDelaySamples = Int.ceil (samplesDouble (fs : ℚ) 2000) ∧
    BufferAllocated d ∧ (0 ≤ d.delay ∧ d.delay ≤ 2000) ∧ CursorsInRange d

/-! ## Basic facts -/

theorem ceil_two_seconds (fs : Int) : Int.ceil ((fs : ℚ) * (1 / 1000) * 2000) = 2 * fs := by
  have h : (fs : ℚ) * (1 / 1000) * 2000 = ((2 * fs : Int) : ℚ) := by
    push_cast
    ring
  rw [h, Int.ceil_intCast]

theorem readSlot_of_inRange (buf : List ℚ) (i : Int) (h0 : 0 ≤ i) (h1 : i < (buf.length : Int)) :
    readSlot buf i = some (buf.getD i.toNat 0) := by
  have hlt : i.toNat < buf.length := by omega
  simp [readSlot, h0, List.getD, List.getElem?_eq_getElem hlt]

theorem writeSlot_of_inRange (buf : List ℚ) (i : Int) (v : ℚ) (h0 : 0 ≤ i)
    (h1 : i < (buf.length : Int)) : writeSlot buf i v = some (buf.set i.toNat v) := by
  simp [writeSlot, h0, h1]

theorem delayedValue_of_inRange (d : DelayLine) (x : ℚ) (hlen : BufferAllocated d)
    (hr : CursorsInRange d) : delayedValue d x = some (tapValue d x) := by
  obtain ⟨⟨hr0, hr1⟩, hw0, hw1⟩ := hr
  unfold BufferAllocated at hlen
  unfold delayedValue tapValue
  by_cases hz : d.delaySamples = 0
  · simp [hz]
  · rw [if_neg hz, if_neg hz, readSlot_of_inRange _ _ hr0 (by omega)]
    by_cases hp : d.readPos - 1 > 0
    · rw [if_pos hp, if_pos hp, readSlot_of_inRange _ _ (by omega) (by omega)]
      rfl
    · rw [if_neg hp, if_neg hp, readSlot_of_inRange _ _ (by omega) (by omega)]
      rfl

theorem processSample_of_inRange (d : DelayLine) (x : ℚ) (hb : d.bypass = false)
    (hlen : BufferAllocated d) (hr : CursorsInRange d) :
    processSample d x =
      some (d.mix * tapValue d x + (1 - d.mix) * x, advance d (x + d.feedback * tapValue d x)) := by
  have hw := hr.2
  unfold BufferAllocated at hlen
  unfold processSample
  rw [if_neg (by simp [hb]), delayedValue_of_inRange d x hlen hr, Option.some_bind,
    writeSlot_of_inRange _ _ _ hw.1 (by omega)]
  rfl

theorem processSample_of_bypass (d : DelayLine) (x : ℚ) (hb : d.bypass = true) :
    processSample d x = some (x, d) := by
  simp [processSample, hb]

theorem processSamples_of_bypass (d : DelayLine) (hb : d.bypass = true) (xs : List ℚ) :
    processSamples d xs = some (xs, d) := by
  induction xs with
  | nil => rfl
  | cons x xs ih => simp [processSamples, processSample_of_bypass d x hb, ih]

/-! ## The circular buffer implements a shift register -/

theorem tapValue_of_tracks (d : DelayLine) (hist : List ℚ) (x : ℚ) (ht : Tracks d hist)
    (htr : Trails d) (hf : d.delayFraction = 0) (h1 : 1 ≤ d.delaySamples)
    (h2 : d.delaySamples ≤ d.maxDelaySamples) :
    tapValue d x = hist.getD (d.delaySamples.toNat - 1) 0 := by
  obtain ⟨hlen, ⟨hw0, hw1⟩, hslots⟩ := ht
  unfold BufferAllocated at hlen
  unfold Trails at htr
  have hr0 : 0 ≤ d.readPos := by
    rw [htr]; split_ifs <;> omega
  have hr1 : d.readPos < d.maxDelaySamples := by
    rw [htr]; split_ifs <;> omega
  unfold tapValue
  rw [if_neg (show ¬ d.delaySamples = 0 by omega),
    if_neg (show ¬ (d.readPos = d.writePos ∧ d.delaySamples < 1) by omega), hf,
    hslots d.readPos.toNat (by omega)]
  have hage : slotAge d.writePos.toNat d.buffer.length d.readPos.toNat
      = d.delaySamples.toNat - 1 := by
    unfold slotAge
    split_ifs at htr ⊢ <;> omega
  rw [hage]
  ring

theorem cursorsInRange_of_trails (d : DelayLine) (htr : Trails d)
    (hw : 0 ≤ d.writePos ∧ d.writePos < d.maxDelaySamples) (h1 : 0 ≤ d.delaySamples)
    (h2 : d.delaySamples ≤ d.maxDelaySamples) : CursorsInRange d := by
  unfold Trails at htr
  refine ⟨⟨?_, ?_⟩, hw⟩
  · rw [htr]; split_ifs <;> omega
  · rw [htr]; split_ifs <;> omega

theorem trails_advance (d : DelayLine) (v : ℚ) (htr : Trails d)
    (hw : 0 ≤ d.writePos ∧ d.writePos < d.maxDelaySamples) (h1 : 0 ≤ d.delaySamples)
    (h2 : d.delaySamples ≤ d.maxDelaySamples) : Trails (advance d v) := by
  unfold Trails at htr ⊢
  simp only [advance]
  split_ifs at htr ⊢ <;> omega

theorem tracks_advance (d : DelayLine) (hist : List ℚ) (v : ℚ) (ht : Tracks d hist) :
    Tracks (advance d v) (v :: hist) := by
  obtain ⟨hlen, ⟨hw0, hw1⟩, hslots⟩ := ht
  unfold BufferAllocated at hlen
  refine ⟨?_, ⟨?_, ?_⟩, ?_⟩
  · simp [BufferAllocated, advance, hlen]
  · simp only [advance]; split_ifs <;> omega
  · simp only [advance]; split_ifs <;> omega
  · intro j hj
    simp only [advance, List.length_set] at hj ⊢
    by_cases hjw : j = d.writePos.toNat
    · subst hjw
      have hage : slotAge (if d.writePos + 1 ≥ d.maxDelaySamples then 0 else d.writePos + 1).toNat
          d.buffer.length d.writePos.toNat = 0 := by
        unfold slotAge
        split_ifs <;> omega
      rw [hage]
      simp [List.getD, List.getElem?_set, hj]
    · have hage : slotAge (if d.writePos + 1 ≥ d.maxDelaySamples then 0 else d.writePos + 1).toNat
          d.buffer.length j = slotAge d.writePos.toNat d.buffer.length j + 1 := by
        unfold slotAge
        split_ifs <;> omega
      rw [hage]
      have hget : (d.buffer.set d.writePos.toNat v).getD j 0 = d.buffer.getD j 0 := by
        simp [List.getD, List.getElem?_set, Ne.symm hjw]
      rw [hget, hslots j hj]
      simp [List.getD]

theorem processSamples_of_tracks (N : Nat) (xs : List ℚ) :
    ∀ (d : DelayLine) (hist : List ℚ), Tracks d hist → Trails d → d.bypass = false →
      d.delayFraction = 0 → d.delaySamples = (N : Int) → 1 ≤ N → (N : Int) ≤ d.maxDelaySamples →
      ∃ d', processSamples d xs = some (echo N d.feedback d.mix hist xs, d') := by
  induction xs with
  | nil => intro d hist _ _ _ _ _ _ _; exact ⟨d, rfl⟩
  | cons x xs ih =>
    intro d hist ht htr hb hf hN h1 h2
    have hw := ht.2.1
    have hin : CursorsInRange d := cursorsInRange_of_trails d htr hw (by omega) (by omega)
    have htap : tapValue d x = hist.getD (N - 1) 0 := by
      rw [tapValue_of_tracks d hist x ht htr hf (by omega) (by omega), hN]
      rfl
    obtain ⟨d', hd'⟩ := ih (advance d (x + d.feedback * tapValue d x))
      ((x + d.feedback * tapValue d x) :: hist) (tracks_advance d hist _ ht)
      (trails_advance d _ htr hw (by omega) (by omega)) hb hf hN h1 h2
    refine ⟨d', ?_⟩
    simp only [processSamples, processSample_of_inRange d x hb ht.1 hin, Option.some_bind, hd']
    simp [echo, advance, htap]

theorem outputs_of_tracks (N : Nat) (xs : List ℚ) (d : DelayLine) (hist : List ℚ)
    (ht : Tracks d hist) (htr : Trails d) (hb : d.bypass = false) (hf : d.delayFraction = 0)
    (hN : d.delaySamples = (N : Int)) (h1 : 1 ≤ N) (h2 : (N : Int) ≤ d.maxDelaySamples) :
    outputs d xs = some (echo N d.feedback d.mix hist xs) := by
  obtain ⟨d', hd'⟩ := processSamples_of_tracks N xs d hist ht htr hb hf hN h1 h2
  simp [outputs, hd']

/-! ## Fresh states -/

theorem reset_fresh (d : DelayLine) (hM : 0 < d.maxDelaySamples) :
    ∃ d0, reset d = some d0 ∧ Tracks d0 [] ∧ Trails d0 ∧
      d0.buffer = List.replicate d.maxDelaySamples.toNat 0 ∧ d0.writePos = 0 ∧
      d0.maxDelaySamples = d.maxDelaySamples ∧
      d0.delaySamples = Int.floor (d.sampleFreq * (1 / 1000) * d.delay) ∧
      d0.delayFraction = d.sampleFreq * (1 / 1000) * d.delay
        - (Int.floor (d.sampleFreq * (1 / 1000) * d.delay) : ℚ) ∧
      d0.sampleFreq = d.sampleFreq ∧ d0.delay = d.delay ∧ d0.feedback = d.feedback ∧
      d0.mix = d.mix ∧ d0.bypass = d.bypass := by
  refine ⟨setReadPos { d with
      buffer := List.replicate d.maxDelaySamples.toNat 0
      readPos := 0
      writePos := 0 }, by rw [reset, if_neg (by omega)], ?_, ?_, rfl, rfl, rfl, rfl, rfl, rfl,
    rfl, rfl, rfl, rfl⟩
  · refine ⟨?_, ⟨?_, ?_⟩, ?_⟩
    · simp only [BufferAllocated, setReadPos, List.length_replicate]
      omega
    · simp [setReadPos]
    · simpa [setReadPos] using hM
    · intro j hj
      simp only [setReadPos, List.length_replicate] at hj ⊢
      simp [List.getD, List.getElem?_replicate, hj]
  · rfl

theorem initMembers_maxDelaySamples (fs : Int) (delay feedback mix : ℚ) :
    (initMembers fs delay feedback mix).maxDelaySamples = 2 * fs := by
  simp only [initMembers]
  exact ceil_two_seconds fs

/-! ## The reference model on particular inputs -/

theorem echo_without_feedback (N : Nat) (h1 : 1 ≤ N) (xs : List ℚ) :
    ∀ hist : List ℚ, echo N 0 1 hist xs =
      (List.range xs.length).map
        (fun k => if k < N then hist.getD (N - 1 - k) 0 else xs.getD (k - N) 0) := by
  induction xs with
  | nil => intro hist; rfl
  | cons x xs ih =>
    intro hist
    rw [echo, List.length_cons, List.range_succ_eq_map, List.map_cons, List.map_map]
    have hx : x + 0 * hist.getD (N - 1) 0 = x := by ring
    rw [hx, ih (x :: hist)]
    congr 1
    · simp [Nat.lt_of_lt_of_le Nat.zero_lt_one h1]
    · apply List.map_congr_left
      intro k _
      simp only [Function.comp]
      by_cases hk : k + 1 < N
      · have hk' : k < N := by omega
        have hidx : N - 1 - k = (N - 1 - (k + 1)) + 1 := by omega
        rw [if_pos hk, if_pos hk', hidx]
        simp [List.getD]
      · by_cases hk' : k < N
        · have hidx : N - 1 - k = 0 := by omega
          have hidx' : k + 1 - N = 0 := by omega
          rw [if_neg hk, if_pos hk', hidx, hidx']
          simp [List.getD]
        · have hidx : k + 1 - N = (k - N) + 1 := by omega
          rw [if_neg hk, if_neg hk', hidx]
          simp [List.getD]

theorem impulse_getD (len m : Nat) : (impulse len).getD m 0 = if m = 0 then 1 else 0 := by
  cases m with
  | zero => simp [impulse]
  | succ m =>
    simp only [impulse, List.getD, List.getElem?_cons_succ, List.getElem?_replicate]
    split_ifs <;> simp_all

theorem reset_integer_delay (d : DelayLine) (N : Nat) (h1 : 1 ≤ N)
    (hN : (N : Int) ≤ d.maxDelaySamples) (hdelay : d.sampleFreq * (1 / 1000) * d.delay = (N : ℚ))
    (hb : d.bypass = false) :
    ∃ d0, reset d = some d0 ∧ d0.maxDelaySamples = d.maxDelaySamples ∧
      d0.delaySamples = (N : Int) ∧ d0.delayFraction = 0 ∧
      ∀ xs, outputs d0 xs = some (echo N d.feedback d.mix [] xs) := by
  obtain ⟨d0, hreset, ht, htr, -, -, hmax, hds, hfr, -, -, hfb, hmix, hbp⟩ :=
    reset_fresh d (by omega)
  rw [hdelay, Int.floor_natCast] at hds
  rw [hdelay, Int.floor_natCast] at hfr
  have hfr0 : d0.delayFraction = 0 := by
    rw [hfr]; simp
  refine ⟨d0, hreset, hmax, hds, hfr0, ?_⟩
  intro xs
  rw [← hfb, ← hmix]
  exact outputs_of_tracks N xs d0 [] ht htr (by rw [hbp, hb]) hfr0 hds h1 (by omega)

theorem delayed_impulse (N len : Nat) :
    (List.range (impulse len).length).map
        (fun k => if k < N then ([] : List ℚ).getD (N - 1 - k) 0 else (impulse len).getD (k - N) 0)
      = (List.range (len + 1)).map (fun k => if k = N then (1 : ℚ) else 0) := by
  have hl : (impulse len).length = len + 1 := by simp [impulse]
  rw [hl]
  apply List.map_congr_left
  intro k _
  by_cases hk : k < N
  · rw [if_pos hk, if_neg (by omega)]
    rfl
  · rw [if_neg hk, impulse_getD]
    by_cases hk' : k = N
    · rw [if_pos hk', if_pos (by omega)]
    · rw [if_neg hk', if_neg (by omega)]

theorem echoHistory_getD (N : Nat) (f : ℚ) (k : Nat) :
    ∀ m : Nat, (echoHistory N f k).getD m 0 =
      if m < k then (if N ∣ (k - 1 - m) then f ^ ((k - 1 - m) / N) else 0) else 0 := by
  induction k with
  | zero => intro m; simp [echoHistory]
  | succ k ih =>
    intro m
    cases m with
    | zero => simp [echoHistory]
    | succ m =>
      have hget : (echoHistory N f (k + 1)).getD (m + 1) 0 = (echoHistory N f k).getD m 0 := by
        simp [echoHistory, List.getD]
      have hidx : k + 1 - 1 - (m + 1) = k - 1 - m := by omega
      have hc : (m + 1 < k + 1) ↔ (m < k) := by omega
      rw [hget, ih m, hidx]
      simp only [hc]

theorem echoHistory_next (N : Nat) (f : ℚ) (k : Nat) (h1 : 1 ≤ N) (hk : 1 ≤ k) :
    (0 : ℚ) + f * (echoHistory N f k).getD (N - 1) 0 = if N ∣ k then f ^ (k / N) else 0 := by
  rw [echoHistory_getD]
  by_cases hNk : N ≤ k
  · have hidx : k - 1 - (N - 1) = k - N := by omega
    rw [if_pos (by omega), hidx]
    have hdvd : N ∣ (k - N) ↔ N ∣ k := by
      constructor
      · intro h
        have := Nat.dvd_add h (Nat.dvd_refl N)
        rwa [Nat.sub_add_cancel hNk] at this
      · intro h
        exact Nat.dvd_sub' h (Nat.dvd_refl N)
    by_cases hd : N ∣ k
    · rw [if_pos (hdvd.mpr hd), if_pos hd, Nat.div_eq_sub_div (by omega) hNk, pow_succ]
      ring
    · rw [if_neg (fun h => hd (hdvd.mp h)), if_neg hd]
      ring
  · have hnd : ¬ N ∣ k := fun h => hNk (Nat.le_of_dvd (by omega) h)
    rw [if_neg (by omega), if_neg hnd]
    ring

theorem echo_of_zeros (N : Nat) (f : ℚ) (h1 : 1 ≤ N) (len : Nat) :
    ∀ k : Nat, 1 ≤ k → echo N f 1 (echoHistory N f k) (List.replicate len 0) =
      (List.range len).map
        (fun i => if N ≤ k + i then (if N ∣ (k + i - N) then f ^ ((k + i - N) / N) else 0) else 0) := by
  induction len with
  | zero => intro k _; rfl
  | succ len ih =>
    intro k hk
    rw [List.replicate_succ, echo, echoHistory_next N f k h1 hk]
    have hnext : (if N ∣ k then f ^ (k / N) else 0) :: echoHistory N f k
        = echoHistory N f (k + 1) := rfl
    rw [hnext, ih (k + 1) (by omega), List.range_succ_eq_map, List.map_cons, List.map_map]
    congr 1
    · rw [echoHistory_getD]
      have hidx : k - 1 - (N - 1) = k + 0 - N := by omega
      have hc : (N - 1 < k) ↔ (N ≤ k + 0) := by omega
      rw [hidx]
      simp only [hc]
      ring
    · apply List.map_congr_left
      intro i _
      simp only [Function.comp]
      have hidx : k + 1 + i = k + (i + 1) := by omega
      rw [hidx]

theorem echo_of_impulse (N : Nat) (f : ℚ) (h1 : 1 ≤ N) (len : Nat) :
    echo N f 1 [] (impulse len) =
      (List.range (len + 1)).map (fun k => if N ∣ k ∧ N ≤ k then f ^ (k / N - 1) else 0) := by
  have hfirst : [(1 : ℚ) + f * ([] : List ℚ).getD (N - 1) 0] = echoHistory N f 1 := by
    simp [echoHistory]
  rw [impulse, echo, hfirst, echo_of_zeros N f h1 len 1 (le_refl 1), List.range_succ_eq_map,
    List.map_cons, List.map_map]
  congr 1
  · rw [if_neg (by omega)]
    simp
  · apply List.map_congr_left
    intro i _
    simp only [Function.comp]
    by_cases hNi : N ≤ 1 + i
    · have hdvd : N ∣ (1 + i - N) ↔ N ∣ (i + 1) := by
        constructor
        · intro h
          have := Nat.dvd_add h (Nat.dvd_refl N)
          rwa [Nat.sub_add_cancel hNi, Nat.add_comm 1 i] at this
        · intro h
          rw [Nat.add_comm 1 i]
          exact Nat.dvd_sub' h (Nat.dvd_refl N)
      have hdiv : (1 + i - N) / N = (i + 1) / N - 1 := by
        have h := Nat.div_eq_sub_div (show 0 < N by omega) (show N ≤ i + 1 by omega)
        rw [Nat.add_comm 1 i, h, Nat.add_sub_cancel]
      rw [if_pos hNi, hdiv]
      by_cases hd : N ∣ (i + 1)
      · rw [if_pos (hdvd.mpr hd), if_pos ⟨hd, by omega⟩]
      · rw [if_neg (fun h => hd (hdvd.mp h)), if_neg (fun h => hd h.1)]
    · rw [if_neg hNi, if_neg (fun h => hNi (by omega))]

/-! ## Reachable states -/

theorem delaySamples_bounds (fs : Int) (hfs : 0 ≤ fs) (delay : ℚ) (h0 : 0 ≤ delay)
    (h1 : delay ≤ 2000) :
    0 ≤ Int.floor ((fs : ℚ) * (1 / 1000) * delay) ∧
      Int.floor ((fs : ℚ) * (1 / 1000) * delay) ≤ 2 * fs := by
  have hq : (0 : ℚ) ≤ (fs : ℚ) := by exact_mod_cast hfs
  constructor
  · apply Int.floor_nonneg.mpr
    positivity
  · have hle : (fs : ℚ) * (1 / 1000) * delay ≤ ((2 * fs : Int) : ℚ) := by
      push_cast
      nlinarith
    calc Int.floor ((fs : ℚ) * (1 / 1000) * delay)
        ≤ Int.floor (((2 * fs : Int) : ℚ)) := Int.floor_mono hle
      _ = 2 * fs := Int.floor_intCast _

theorem trails_setReadPos (d : DelayLine) : Trails (setReadPos d) := rfl

theorem valid_setReadPos (fs : Int) (hfs : 0 < fs) (d : DelayLine) (hsf : d.sampleFreq = (fs : ℚ))
    (hmax : d.maxDelaySamples = 2 * fs) (hlen : BufferAllocated d)
    (hdelay : 0 ≤ d.delay ∧ d.delay ≤ 2000)
    (hw : 0 ≤ d.writePos ∧ d.writePos < d.maxDelaySamples) : Valid fs (setReadPos d) := by
  have hb := delaySamples_bounds fs (by omega) d.delay hdelay.1 hdelay.2
  refine ⟨hsf, hmax, hlen, hdelay, ?_⟩
  apply cursorsInRange_of_trails _ (trails_setReadPos d) hw
  · show 0 ≤ Int.floor (d.sampleFreq * (1 / 1000) * d.delay)
    rw [hsf]; exact hb.1
  · show Int.floor (d.sampleFreq * (1 / 1000) * d.delay) ≤ d.maxDelaySamples
    rw [hsf, hmax]; exact hb.2

theorem valid_reset (fs : Int) (hfs : 0 < fs) (d : DelayLine) (hsf : d.sampleFreq = (fs : ℚ))
    (hmax : d.maxDelaySamples = 2 * fs) (hdelay : 0 ≤ d.delay ∧ d.delay ≤ 2000) :
    ∃ d0, reset d = some d0 ∧ Valid fs d0 ∧ Silent d0 ∧
      d0.buffer = List.replicate d.maxDelaySamples.toNat 0 ∧ d0.writePos = 0 ∧
      d0.maxDelaySamples = d.maxDelaySamples := by
  refine ⟨setReadPos { d with
      buffer := List.replicate d.maxDelaySamples.toNat 0
      readPos := 0
      writePos := 0 }, by rw [reset, if_neg (by omega)], ?_, ?_, rfl, rfl, rfl⟩
  · refine valid_setReadPos fs hfs { d with
        buffer := List.replicate d.maxDelaySamples.toNat 0
        readPos := 0
        writePos := 0 } hsf hmax ?_ hdelay ?_
    · simp only [BufferAllocated, List.length_replicate]
      omega
    · show (0 : Int) ≤ 0 ∧ (0 : Int) < d.maxDelaySamples
      omega
  · intro j
    show (List.replicate d.maxDelaySamples.toNat (0 : ℚ)).getD j 0 = 0
    rw [List.getD_eq_getElem?_getD, List.getElem?_replicate]
    split_ifs <;> rfl

theorem valid_new (fs : Int) (hfs : 0 < fs) (delay feedback mix : ℚ) (h0 : 0 ≤ delay)
    (h1 : delay ≤ 2000) :
    ∃ d0, DelayLine.new fs delay feedback mix = some d0 ∧ Valid fs d0 ∧ Silent d0 := by
  obtain ⟨d0, hreset, hv, hs, -⟩ := valid_reset fs hfs (initMembers fs delay feedback mix) rfl
    (initMembers_maxDelaySamples fs delay feedback mix) ⟨h0, h1⟩
  exact ⟨d0, hreset, hv, hs⟩

theorem cursorsInRange_advance (d : DelayLine) (v : ℚ) (h : CursorsInRange d) :
    CursorsInRange (advance d v) := by
  obtain ⟨⟨hr0, hr1⟩, hw0, hw1⟩ := h
  refine ⟨⟨?_, ?_⟩, ?_, ?_⟩ <;> simp only [advance] <;> split_ifs <;> omega

theorem valid_advance (fs : Int) (d : DelayLine) (v : ℚ) (h : Valid fs d) :
    Valid fs (advance d v) := by
  obtain ⟨hsf, hmax, hlen, hdelay, hin⟩ := h
  refine ⟨hsf, hmax, ?_, hdelay, cursorsInRange_advance d v hin⟩
  unfold BufferAllocated at hlen ⊢
  simpa [advance] using hlen

theorem cursorRelation_of_trails (d : DelayLine) (htr : Trails d)
    (hw : 0 ≤ d.writePos ∧ d.writePos < d.maxDelaySamples) (h0 : 0 ≤ d.delaySamples)
    (h1 : d.delaySamples ≤ d.maxDelaySamples) : CursorRelation d := by
  unfold Trails at htr
  unfold CursorRelation
  by_cases hneg : d.writePos - d.delaySamples < 0
  · rw [if_pos hneg] at htr
    rw [htr, ← Int.add_emod_self, Int.emod_eq_of_lt (by omega) (by omega)]
  · rw [if_neg hneg] at htr
    rw [htr, Int.emod_eq_of_lt (by omega) (by omega)]

theorem wrap_eq_emod (c M : Int) (h0 : 0 ≤ c) (h1 : c < M) :
    (if c + 1 ≥ M then 0 else c + 1) = (c + 1) % M := by
  by_cases h : c + 1 ≥ M
  · have hc : c + 1 = M := by omega
    rw [if_pos h, hc, Int.emod_self]
  · rw [if_neg h, Int.emod_eq_of_lt (by omega) (by omega)]

theorem cursorRelation_advance (d : DelayLine) (v : ℚ) (h : CursorRelation d)
    (hw : 0 ≤ d.writePos ∧ d.writePos < d.maxDelaySamples) :
    CursorRelation (advance d v) := by
  unfold CursorRelation at h ⊢
  have hM : 0 < d.maxDelaySamples := by omega
  have hr0 : 0 ≤ d.readPos := by
    rw [h]; exact Int.emod_nonneg _ (by omega)
  have hr1 : d.readPos < d.maxDelaySamples := by
    rw [h]; exact Int.emod_lt_of_pos _ hM
  show (if d.readPos + 1 ≥ d.maxDelaySamples then 0 else d.readPos + 1)
    = ((if d.writePos + 1 ≥ d.maxDelaySamples then 0 else d.writePos + 1) - d.delaySamples)
      % d.maxDelaySamples
  rw [wrap_eq_emod _ _ hr0 hr1, wrap_eq_emod _ _ hw.1 hw.2, h, Int.emod_add_emod,
    sub_eq_add_neg ((d.writePos + 1) % d.maxDelaySamples), Int.emod_add_emod]
  congr 1
  ring

/-! ## Rounding -/

theorem roundHalfEven_intCast (n : Int) : roundHalfEven (n : ℚ) = n := by
  unfold roundHalfEven
  rw [Int.floor_intCast, sub_self, if_pos (by norm_num)]

theorem floor_le_roundHalfEven (x : ℚ) : Int.floor x ≤ roundHalfEven x := by
  unfold roundHalfEven
  split_ifs <;> omega

theorem roundHalfEven_le_floor_succ (x : ℚ) : roundHalfEven x ≤ Int.floor x + 1 := by
  unfold roundHalfEven
  split_ifs <;> omega

theorem roundHalfEven_mono (x y : ℚ) (h : x ≤ y) : roundHalfEven x ≤ roundHalfEven y := by
  have hf : Int.floor x ≤ Int.floor y := Int.floor_mono h
  by_cases hlt : Int.floor x < Int.floor y
  · have h1 := roundHalfEven_le_floor_succ x
    have h2 := floor_le_roundHalfEven y
    omega
  · have heq : Int.floor x = Int.floor y := by omega
    have h2 := floor_le_roundHalfEven y
    unfold roundHalfEven
    by_cases c1 : x - (Int.floor x : ℚ) < 1 / 2
    · rw [if_pos c1]; omega
    · rw [if_neg c1]
      have c1' : 1 / 2 ≤ x - (Int.floor x : ℚ) := not_lt.mp c1
      have hy : 1 / 2 ≤ y - (Int.floor y : ℚ) := by
        rw [← heq]; linarith
      rw [if_neg (not_lt.mpr hy)]
      by_cases c2 : 1 / 2 < x - (Int.floor x : ℚ)
      · have hy2 : 1 / 2 < y - (Int.floor y : ℚ) := by
          rw [← heq]; linarith
        rw [if_pos c2, if_pos hy2, heq]
      · rw [if_neg c2]
        by_cases c3 : Int.floor x % 2 = 0
        · rw [if_pos c3]
          split_ifs <;> omega
        · rw [if_neg c3]
          have c3' : ¬ Int.floor y % 2 = 0 := by rw [← heq]; exact c3
          rw [if_neg c3', heq]
          split_ifs <;> omega

theorem roundHalfEven_eq_of_near (x : ℚ) (m : Int) (h1 : (m : ℚ) - 1 / 2 < x)
    (h2 : x < (m : ℚ) + 1 / 2) : roundHalfEven x = m := by
  by_cases hx : (m : ℚ) ≤ x
  · have hfl : Int.floor x = m := by
      rw [Int.floor_eq_iff]
      constructor
      · exact hx
      · linarith
    unfold roundHalfEven
    rw [hfl, if_pos (by linarith)]
  · have hfl : Int.floor x = m - 1 := by
      rw [Int.floor_eq_iff]
      push_cast
      constructor
      · linarith
      · linarith [not_le.mp hx]
    unfold roundHalfEven
    rw [hfl]
    push_cast
    rw [if_neg (by linarith), if_pos (by linarith)]
    ring

theorem roundHalfEven_tie_odd (x : ℚ) (f : Int) (h : x = (f : ℚ) + 1 / 2) (hodd : f % 2 = 1) :
    roundHalfEven x = f + 1 := by
  have hfl : Int.floor x = f := by
    rw [Int.floor_eq_iff]
    constructor <;> linarith
  unfold roundHalfEven
  rw [hfl, if_neg (by linarith), if_neg (by linarith), if_neg (by omega)]

theorem ulp_pos (p : Nat) (x : ℚ) : 0 < ulp p x := by
  unfold ulp
  positivity

theorem log_two_eq (x : ℚ) (e : Int) (hx : 0 < x) (h1 : (2 : ℚ) ^ e ≤ x) (h2 : x < (2 : ℚ) ^ (e + 1)) :
    Int.log 2 x = e := by
  have hb : 1 < 2 := by norm_num
  have ha : e ≤ Int.log 2 x := (Int.zpow_le_iff_le_log hb hx).mp (by exact_mod_cast h1)
  have hc : Int.log 2 x < e + 1 := (Int.lt_zpow_iff_log_lt hb hx).mp (by exact_mod_cast h2)
  omega

theorem log_two_bounds (x : ℚ) (hx : 0 < x) :
    (2 : ℚ) ^ Int.log 2 x ≤ x ∧ x < (2 : ℚ) ^ (Int.log 2 x + 1) := by
  have hb : 1 < 2 := by norm_num
  constructor
  · exact_mod_cast Int.zpow_log_le_self hb hx
  · exact_mod_cast Int.lt_zpow_succ_log_self hb x

theorem ulp_of_pos (q : Nat) (x : ℚ) (hx : 0 < x) :
    ulp (q + 1) x = (2 : ℚ) ^ (Int.log 2 x - (q : Int)) := by
  unfold ulp
  rw [abs_of_pos hx]
  congr 1
  push_cast
  ring

theorem scaled_bounds (q : Nat) (x : ℚ) (hx : 0 < x) :
    (((2 : Int) ^ q : Int) : ℚ) ≤ x / ulp (q + 1) x ∧
      x / ulp (q + 1) x ≤ (((2 : Int) ^ (q + 1) : Int) : ℚ) := by
  obtain ⟨h1, h2⟩ := log_two_bounds x hx
  have hu := ulp_pos (q + 1) x
  have hsplit : (2 : ℚ) ^ Int.log 2 x = (2 : ℚ) ^ (q : Int) * ulp (q + 1) x := by
    rw [ulp_of_pos q x hx, ← zpow_add₀ (by norm_num : (2 : ℚ) ≠ 0)]
    congr 1
    ring
  have hsplit' : (2 : ℚ) ^ (Int.log 2 x + 1) = (2 : ℚ) ^ ((q : Int) + 1) * ulp (q + 1) x := by
    rw [ulp_of_pos q x hx, ← zpow_add₀ (by norm_num : (2 : ℚ) ≠ 0)]
    congr 1
    ring
  have hq : (((2 : Int) ^ q : Int) : ℚ) = (2 : ℚ) ^ (q : Int) := by
    push_cast
    rw [zpow_natCast]
  have hq' : (((2 : Int) ^ (q + 1) : Int) : ℚ) = (2 : ℚ) ^ ((q : Int) + 1) := by
    push_cast
    rw [← zpow_natCast]
    push_cast
    rfl
  constructor
  · rw [hq, le_div_iff₀ hu, ← hsplit]
    exact h1
  · rw [hq', div_le_iff₀ hu, ← hsplit']
    exact h2.le

theorem roundBinary_of_pos (q : Nat) (x : ℚ) (hx : 0 < x) :
    roundBinary (q + 1) x = (roundHalfEven (x / ulp (q + 1) x) : ℚ) * ulp (q + 1) x := by
  unfold roundBinary
  rw [if_neg (ne_of_gt hx)]

theorem roundBinary_bounds (q : Nat) (x : ℚ) (hx : 0 < x) :
    (2 : ℚ) ^ Int.log 2 x ≤ roundBinary (q + 1) x ∧
      roundBinary (q + 1) x ≤ (2 : ℚ) ^ (Int.log 2 x + 1) := by
  obtain ⟨h1, h2⟩ := scaled_bounds q x hx
  have hu := ulp_pos (q + 1) x
  have hlo : ((2 : Int) ^ q : Int) ≤ roundHalfEven (x / ulp (q + 1) x) := by
    have := roundHalfEven_mono _ _ h1
    rwa [roundHalfEven_intCast] at this
  have hhi : roundHalfEven (x / ulp (q + 1) x) ≤ ((2 : Int) ^ (q + 1) : Int) := by
    have := roundHalfEven_mono _ _ h2
    rwa [roundHalfEven_intCast] at this
  have hlo' : (((2 : Int) ^ q : Int) : ℚ) ≤ (roundHalfEven (x / ulp (q + 1) x) : ℚ) := by
    exact_mod_cast hlo
  have hhi' : (roundHalfEven (x / ulp (q + 1) x) : ℚ) ≤ (((2 : Int) ^ (q + 1) : Int) : ℚ) := by
    exact_mod_cast hhi
  have hsplit : (2 : ℚ) ^ Int.log 2 x = (((2 : Int) ^ q : Int) : ℚ) * ulp (q + 1) x := by
    rw [ulp_of_pos q x hx]
    push_cast
    rw [← zpow_natCast, ← zpow_add₀ (by norm_num : (2 : ℚ) ≠ 0)]
    congr 1
    ring
  have hsplit' : (2 : ℚ) ^ (Int.log 2 x + 1) = (((2 : Int) ^ (q + 1) : Int) : ℚ) * ulp (q + 1) x := by
    rw [ulp_of_pos q x hx]
    push_cast
    rw [← zpow_natCast, ← zpow_add₀ (by norm_num : (2 : ℚ) ≠ 0)]
    congr 1
    push_cast
    ring
  rw [roundBinary_of_pos q x hx, hsplit, hsplit']
  constructor
  · exact mul_le_mul_of_nonneg_right hlo' hu.le
  · exact mul_le_mul_of_nonneg_right hhi' hu.le

theorem roundBinary_pos (q : Nat) (x : ℚ) (hx : 0 < x) : 0 < roundBinary (q + 1) x :=
  lt_of_lt_of_le (by positivity) (roundBinary_bounds q x hx).1

theorem roundBinary_nonneg (q : Nat) (x : ℚ) (hx : 0 ≤ x) : 0 ≤ roundBinary (q + 1) x := by
  rcases eq_or_lt_of_le hx with h | h
  · rw [← h]; simp [roundBinary]
  · exact (roundBinary_pos q x h).le

theorem roundBinary_mono (q : Nat) (x y : ℚ) (hx : 0 ≤ x) (hxy : x ≤ y) :
    roundBinary (q + 1) x ≤ roundBinary (q + 1) y := by
  rcases eq_or_lt_of_le hx with h | h
  · rw [← h]
    have h0 : roundBinary (q + 1) 0 = 0 := by simp [roundBinary]
    rw [h0]
    exact roundBinary_nonneg q y (le_trans hx hxy)
  · have hy : 0 < y := lt_of_lt_of_le h hxy
    have hlog : Int.log 2 x ≤ Int.log 2 y := Int.log_mono_right h hxy
    by_cases heq : Int.log 2 x = Int.log 2 y
    · have hu : ulp (q + 1) x = ulp (q + 1) y := by
        rw [ulp_of_pos q x h, ulp_of_pos q y hy, heq]
      rw [roundBinary_of_pos q x h, roundBinary_of_pos q y hy, hu]
      have hup := ulp_pos (q + 1) y
      apply mul_le_mul_of_nonneg_right _ hup.le
      have : roundHalfEven (x / ulp (q + 1) y) ≤ roundHalfEven (y / ulp (q + 1) y) :=
        roundHalfEven_mono _ _ (div_le_div_of_nonneg_right hxy hup.le)
      exact_mod_cast this
    · have hlt : Int.log 2 x + 1 ≤ Int.log 2 y := by omega
      calc roundBinary (q + 1) x ≤ (2 : ℚ) ^ (Int.log 2 x + 1) := (roundBinary_bounds q x h).2
        _ ≤ (2 : ℚ) ^ Int.log 2 y := zpow_le_zpow_right₀ (by norm_num) hlt
        _ ≤ roundBinary (q + 1) y := (roundBinary_bounds q y hy).1

theorem roundBinary_eval (q : Nat) (x : ℚ) (e m : Int) (hx : 0 < x) (h1 : (2 : ℚ) ^ e ≤ x)
    (h2 : x < (2 : ℚ) ^ (e + 1)) (hm : roundHalfEven (x / (2 : ℚ) ^ (e - (q : Int))) = m) :
    roundBinary (q + 1) x = (m : ℚ) * (2 : ℚ) ^ (e - (q : Int)) := by
  rw [roundBinary_of_pos q x hx, ulp_of_pos q x hx, log_two_eq x e hx h1 h2, hm]

theorem roundBinary_natCast (q n : Nat) (hn : n < 2 ^ (q + 1)) :
    roundBinary (q + 1) (n : ℚ) = (n : ℚ) := by
  rcases Nat.eq_zero_or_pos n with h0 | hpos
  · rw [h0]; simp [roundBinary]
  · have hx : (0 : ℚ) < (n : ℚ) := by exact_mod_cast hpos
    have hlog : Int.log 2 (n : ℚ) = (Nat.log 2 n : Int) := Int.log_natCast 2 n
    have hle : Nat.log 2 n ≤ q := by
      have h1 : 2 ^ Nat.log 2 n ≤ n := Nat.pow_log_le_self 2 (by omega)
      have h2 : 2 ^ Nat.log 2 n < 2 ^ (q + 1) := lt_of_le_of_lt h1 hn
      have := (Nat.pow_lt_pow_iff_right (by norm_num : 1 < 2)).mp h2
      omega
    have hu : ulp (q + 1) (n : ℚ) = ((2 : ℚ) ^ (q - Nat.log 2 n))⁻¹ := by
      rw [ulp_of_pos q _ hx, hlog, ← zpow_natCast, ← zpow_neg]
      congr 1
      push_cast [Nat.cast_sub hle]
      ring
    have hscaled : (n : ℚ) / ulp (q + 1) (n : ℚ)
        = (((n : Int) * (2 : Int) ^ (q - Nat.log 2 n) : Int) : ℚ) := by
      rw [hu]
      push_cast
      field_simp
    rw [roundBinary_of_pos q _ hx, hscaled, roundHalfEven_intCast, ← hscaled]
    field_simp [(ulp_pos (q + 1) (n : ℚ)).ne']

/-! ## Machine values -/

theorem milli_eq : milli = 1152921504606847 / 1152921504606846976 := by
  have h := roundBinary_eval 52 (1 / 1000) (-10) 4611686018427388 (by norm_num) (by norm_num)
    (by norm_num) (roundHalfEven_eq_of_near _ _ (by norm_num) (by norm_num))
  unfold milli toDouble
  rw [h]
  norm_num

theorem toDouble_natCast (n : Nat) (hn : n < 2 ^ 53) : toDouble (n : ℚ) = (n : ℚ) :=
  roundBinary_natCast 52 n hn

theorem toFloat_natCast (n : Nat) (hn : n < 2 ^ 24) : toFloat (n : ℚ) = (n : ℚ) :=
  roundBinary_natCast 23 n hn

theorem toDouble_mono (x y : ℚ) (hx : 0 ≤ x) (hxy : x ≤ y) : toDouble x ≤ toDouble y :=
  roundBinary_mono 52 x y hx hxy

theorem toFloat_mono (x y : ℚ) (hx : 0 ≤ x) (hxy : x ≤ y) : toFloat x ≤ toFloat y :=
  roundBinary_mono 23 x y hx hxy

theorem toDouble_nonneg (x : ℚ) (hx : 0 ≤ x) : 0 ≤ toDouble x := roundBinary_nonneg 52 x hx

theorem toFloat_nonneg (x : ℚ) (hx : 0 ≤ x) : 0 ≤ toFloat x := roundBinary_nonneg 23 x hx

theorem toDouble_pos (x : ℚ) (hx : 0 < x) : 0 < toDouble x := roundBinary_pos 52 x hx

theorem samplesDouble_nonneg (sampleFreq delay : ℚ) (hs : 0 ≤ sampleFreq) (hd : 0 ≤ delay) :
    0 ≤ samplesDouble sampleFreq delay := by
  unfold samplesDouble
  apply toDouble_nonneg
  apply mul_nonneg _ hd
  apply toDouble_nonneg
  apply mul_nonneg hs
  rw [milli_eq]
  norm_num

theorem samplesDouble_mono (sampleFreq delay delay' : ℚ) (hs : 0 ≤ sampleFreq) (hd : 0 ≤ delay)
    (hdd : delay ≤ delay') : samplesDouble sampleFreq delay ≤ samplesDouble sampleFreq delay' := by
  unfold samplesDouble
  have hP : 0 ≤ toDouble (sampleFreq * milli) := by
    apply toDouble_nonneg
    apply mul_nonneg hs
    rw [milli_eq]
    norm_num
  exact toDouble_mono _ _ (mul_nonneg hP hd) (mul_le_mul_of_nonneg_left hdd hP)

theorem toInt_of_inRange (z : Int) (h0 : -2147483648 ≤ z) (h1 : z < 2147483648) : toInt z = z := by
  unfold toInt
  rw [if_pos ⟨h0, h1⟩]

/-! ## Rounding error -/

theorem roundHalfEven_error (x : ℚ) :
    x - 1 / 2 ≤ (roundHalfEven x : ℚ) ∧ (roundHalfEven x : ℚ) ≤ x + 1 / 2 := by
  have h1 := Int.floor_le x
  have h2 := Int.lt_floor_add_one x
  unfold roundHalfEven
  split_ifs with c1 c2 c3
  · constructor <;> linarith
  · push_cast
    constructor <;> linarith
  · constructor <;> linarith
  · push_cast
    constructor <;> linarith

theorem roundBinary_error (q : Nat) (x : ℚ) (hx : 0 < x) :
    x * (1 - 1 / 2 ^ (q + 1)) ≤ roundBinary (q + 1) x ∧
      roundBinary (q + 1) x ≤ x * (1 + 1 / 2 ^ (q + 1)) := by
  have hu := ulp_pos (q + 1) x
  obtain ⟨hlo, -⟩ := scaled_bounds q x hx
  obtain ⟨e1, e2⟩ := roundHalfEven_error (x / ulp (q + 1) x)
  have hpow : (0 : ℚ) < 2 ^ q := by positivity
  have hq : (((2 : Int) ^ q : Int) : ℚ) = 2 ^ q := by push_cast; rfl
  rw [hq, le_div_iff₀ hu] at hlo
  have hhalf : ulp (q + 1) x / 2 ≤ x * (1 / 2 ^ (q + 1)) := by
    rw [pow_succ]
    rw [show x * (1 / (2 ^ q * 2 : ℚ)) = x / 2 ^ q / 2 by field_simp]
    apply div_le_div_of_nonneg_right _ (by norm_num)
    rw [le_div_iff₀ hpow]
    linarith
  have hx' : x / ulp (q + 1) x * ulp (q + 1) x = x := by field_simp
  rw [roundBinary_of_pos q x hx]
  constructor
  · have : (x / ulp (q + 1) x - 1 / 2) * ulp (q + 1) x
        ≤ (roundHalfEven (x / ulp (q + 1) x) : ℚ) * ulp (q + 1) x :=
      mul_le_mul_of_nonneg_right e1 hu.le
    nlinarith
  · have : (roundHalfEven (x / ulp (q + 1) x) : ℚ) * ulp (q + 1) x
        ≤ (x / ulp (q + 1) x + 1 / 2) * ulp (q + 1) x :=
      mul_le_mul_of_nonneg_right e2 hu.le
    nlinarith

theorem capacity_near (fs : Int) (h0 : 0 < fs) (h1 : fs ≤ 16777216) :
    2 * (fs : ℚ) - 1 / 2 ≤ samplesDouble (fs : ℚ) 2000 ∧
      samplesDouble (fs : ℚ) 2000 ≤ 2 * (fs : ℚ) + 1 / 2 := by
  have hq0 : (0 : ℚ) < (fs : ℚ) := by exact_mod_cast h0
  have hq1 : (fs : ℚ) ≤ 16777216 := by exact_mod_cast h1
  have hm : (0 : ℚ) < milli := by rw [milli_eq]; norm_num
  have hP0 : 0 < toDouble ((fs : ℚ) * milli) := toDouble_pos _ (by positivity)
  have a1 : (fs : ℚ) * milli * (1 - 1 / 2 ^ (52 + 1)) ≤ toDouble ((fs : ℚ) * milli) :=
    (roundBinary_error 52 ((fs : ℚ) * milli) (by positivity)).1
  have a2 : toDouble ((fs : ℚ) * milli) ≤ (fs : ℚ) * milli * (1 + 1 / 2 ^ (52 + 1)) :=
    (roundBinary_error 52 ((fs : ℚ) * milli) (by positivity)).2
  have b1 : toDouble ((fs : ℚ) * milli) * 2000 * (1 - 1 / 2 ^ (52 + 1))
      ≤ toDouble (toDouble ((fs : ℚ) * milli) * 2000) :=
    (roundBinary_error 52 (toDouble ((fs : ℚ) * milli) * 2000) (by positivity)).1
  have b2 : toDouble (toDouble ((fs : ℚ) * milli) * 2000)
      ≤ toDouble ((fs : ℚ) * milli) * 2000 * (1 + 1 / 2 ^ (52 + 1)) :=
    (roundBinary_error 52 (toDouble ((fs : ℚ) * milli) * 2000) (by positivity)).2
  have hlow : (2 : ℚ) - 1 / 67108864
      ≤ 2000 * milli * (1 - 1 / 2 ^ (52 + 1)) * (1 - 1 / 2 ^ (52 + 1)) := by
    rw [milli_eq]; norm_num
  have hhigh : 2000 * milli * (1 + 1 / 2 ^ (52 + 1)) * (1 + 1 / 2 ^ (52 + 1))
      ≤ (2 : ℚ) + 1 / 67108864 := by
    rw [milli_eq]; norm_num
  have hpos1 : (0 : ℚ) ≤ 1 - 1 / 2 ^ (52 + 1) := by norm_num
  have hpos2 : (0 : ℚ) ≤ 1 + 1 / 2 ^ (52 + 1) := by norm_num
  unfold samplesDouble
  constructor
  · calc 2 * (fs : ℚ) - 1 / 2 ≤ (fs : ℚ) * (2 - 1 / 67108864) := by nlinarith
      _ ≤ (fs : ℚ) * (2000 * milli * (1 - 1 / 2 ^ (52 + 1)) * (1 - 1 / 2 ^ (52 + 1))) :=
        mul_le_mul_of_nonneg_left hlow hq0.le
      _ = (fs : ℚ) * milli * (1 - 1 / 2 ^ (52 + 1)) * 2000 * (1 - 1 / 2 ^ (52 + 1)) := by ring
      _ ≤ toDouble ((fs : ℚ) * milli) * 2000 * (1 - 1 / 2 ^ (52 + 1)) :=
        mul_le_mul_of_nonneg_right (mul_le_mul_of_nonneg_right a1 (by norm_num)) hpos1
      _ ≤ toDouble (toDouble ((fs : ℚ) * milli) * 2000) := b1
  · calc toDouble (toDouble ((fs : ℚ) * milli) * 2000)
        ≤ toDouble ((fs : ℚ) * milli) * 2000 * (1 + 1 / 2 ^ (52 + 1)) := b2
      _ ≤ (fs : ℚ) * milli * (1 + 1 / 2 ^ (52 + 1)) * 2000 * (1 + 1 / 2 ^ (52 + 1)) :=
        mul_le_mul_of_nonneg_right (mul_le_mul_of_nonneg_right a2 (by norm_num)) hpos2
      _ = (fs : ℚ) * (2000 * milli * (1 + 1 / 2 ^ (52 + 1)) * (1 + 1 / 2 ^ (52 + 1))) := by ring
      _ ≤ (fs : ℚ) * (2 + 1 / 67108864) := mul_le_mul_of_nonneg_left hhigh hq0.le
      _ ≤ 2 * (fs : ℚ) + 1 / 2 := by nlinarith

theorem capacity_range (fs : Int) (h0 : 0 < fs) (h1 : fs ≤ 16777216) :
    1 ≤ Int.ceil (samplesDouble (fs : ℚ) 2000) ∧
      2 * fs ≤ Int.ceil (samplesDouble (fs : ℚ) 2000) ∧
      Int.ceil (samplesDouble (fs : ℚ) 2000) ≤ 33554433 := by
  obtain ⟨hlo, hhi⟩ := capacity_near fs h0 h1
  have hge : 2 * fs - 1 < Int.ceil (samplesDouble (fs : ℚ) 2000) := by
    apply Int.lt_ceil.mpr
    push_cast
    linarith
  have hle : Int.ceil (samplesDouble (fs : ℚ) 2000) ≤ 2 * fs + 1 := by
    apply Int.ceil_le.mpr
    push_cast
    linarith
  refine ⟨by omega, by omega, by omega⟩

theorem toFloat_even_plus_half (fs : Int) (h0 : 8388608 ≤ fs) (h1 : fs ≤ 16777216) :
    toFloat (2 * (fs : ℚ) + 1 / 2) = 2 * (fs : ℚ) := by
  have hq0 : (8388608 : ℚ) ≤ (fs : ℚ) := by exact_mod_cast h0
  have hq1 : (fs : ℚ) ≤ 16777216 := by exact_mod_cast h1
  by_cases htop : fs = 16777216
  · subst htop
    have h := roundBinary_eval 23 (2 * ((16777216 : Int) : ℚ) + 1 / 2) 25 8388608 (by norm_num)
      (by norm_num) (by norm_num) (roundHalfEven_eq_of_near _ _ (by norm_num) (by norm_num))
    unfold toFloat
    rw [h]
    norm_num
  · have hlt : fs ≤ 16777215 := by omega
    have hq2 : (fs : ℚ) ≤ 16777215 := by exact_mod_cast hlt
    have hpow : (2 : ℚ) ^ ((24 : Int) - ((23 : Nat) : Int)) = 2 := by norm_num
    have h := roundBinary_eval 23 (2 * (fs : ℚ) + 1 / 2) 24 fs (by linarith)
      (by norm_num; linarith) (by norm_num; linarith)
      (roundHalfEven_eq_of_near _ _ (by rw [hpow]; linarith) (by rw [hpow]; linarith))
    unfold toFloat
    rw [h, hpow]
    ring

theorem delay_range (fs : Int) (h0 : 0 < fs) (h1 : fs ≤ 16777216) (delay : ℚ) (hd0 : 0 ≤ delay)
    (hd1 : delay ≤ 2000) :
    0 ≤ Int.floor (toFloat (samplesDouble (fs : ℚ) delay)) ∧
      Int.floor (toFloat (samplesDouble (fs : ℚ) delay))
        ≤ Int.ceil (samplesDouble (fs : ℚ) 2000) := by
  have hq0 : (0 : ℚ) ≤ (fs : ℚ) := by exact_mod_cast h0.le
  obtain ⟨hc0, hc1, hc2⟩ := capacity_range fs h0 h1
  obtain ⟨-, hnear⟩ := capacity_near fs h0 h1
  have hS0 : 0 ≤ samplesDouble (fs : ℚ) delay := samplesDouble_nonneg _ _ hq0 hd0
  have hmono : samplesDouble (fs : ℚ) delay ≤ samplesDouble (fs : ℚ) 2000 :=
    samplesDouble_mono _ _ _ hq0 hd0 hd1
  constructor
  · exact Int.floor_nonneg.mpr (toFloat_nonneg _ hS0)
  · have hbound : toFloat (samplesDouble (fs : ℚ) delay)
        ≤ ((Int.ceil (samplesDouble (fs : ℚ) 2000) : Int) : ℚ) := by
      by_cases hsmall : Int.ceil (samplesDouble (fs : ℚ) 2000) < 16777216
      · have hnat : (((Int.ceil (samplesDouble (fs : ℚ) 2000)).toNat : Int) : ℚ)
            = ((Int.ceil (samplesDouble (fs : ℚ) 2000) : Int) : ℚ) := by
          rw [Int.toNat_of_nonneg (by omega)]
        have hceil : samplesDouble (fs : ℚ) 2000
            ≤ ((Int.ceil (samplesDouble (fs : ℚ) 2000)).toNat : ℚ) :=
          calc samplesDouble (fs : ℚ) 2000
              ≤ ((Int.ceil (samplesDouble (fs : ℚ) 2000) : Int) : ℚ) := Int.le_ceil _
            _ = ((Int.ceil (samplesDouble (fs : ℚ) 2000)).toNat : ℚ) := by
              rw [← hnat]; norm_cast
        have hfloat := toFloat_mono _ _ hS0 (le_trans hmono hceil)
        rw [toFloat_natCast _ (by
          have : (Int.ceil (samplesDouble (fs : ℚ) 2000)).toNat < 16777216 := by omega
          calc (Int.ceil (samplesDouble (fs : ℚ) 2000)).toNat < 16777216 := this
            _ = 2 ^ 24 := by norm_num)] at hfloat
        calc toFloat (samplesDouble (fs : ℚ) delay)
            ≤ ((Int.ceil (samplesDouble (fs : ℚ) 2000)).toNat : ℚ) := hfloat
          _ = ((Int.ceil (samplesDouble (fs : ℚ) 2000) : Int) : ℚ) := by
            rw [← hnat]; norm_cast
      · have hbig : 8388608 ≤ fs := by
          have hle : Int.ceil (samplesDouble (fs : ℚ) 2000) ≤ 2 * fs + 1 := by
            apply Int.ceil_le.mpr
            push_cast
            linarith
          omega
        have hfloat := toFloat_mono _ _ hS0 (le_trans hmono hnear)
        rw [toFloat_even_plus_half fs hbig h1] at hfloat
        calc toFloat (samplesDouble (fs : ℚ) delay) ≤ 2 * (fs : ℚ) := hfloat
          _ ≤ ((Int.ceil (samplesDouble (fs : ℚ) 2000) : Int) : ℚ) := by exact_mod_cast hc1
    have hfl : ((Int.floor (toFloat (samplesDouble (fs : ℚ) delay)) : Int) : ℚ)
        ≤ ((Int.ceil (samplesDouble (fs : ℚ) 2000) : Int) : ℚ) :=
      le_trans (Int.floor_le _) hbound
    exact_mod_cast hfl

/-! ## Machine states -/

theorem machine_readPos_inRange (w N M : Int) (hw0 : 0 ≤ w) (hw1 : w < M) (hN0 : 0 ≤ N)
    (hN1 : N ≤ M) (hM : M ≤ 33554433) :
    0 ≤ (if wrapInt (w - N) < 0 then wrapInt (wrapInt (w - N) + M) else wrapInt (w - N)) ∧
      (if wrapInt (w - N) < 0 then wrapInt (wrapInt (w - N) + M) else wrapInt (w - N)) < M := by
  unfold wrapInt
  split_ifs <;> omega

theorem machine_valid_setReadPos (fs : Int) (h0 : 0 < fs) (h1 : fs ≤ 16777216) (d : DelayLine)
    (hsf : d.sampleFreq = (fs : ℚ))
    (hmax : d.maxDelaySamples = Int.ceil (samplesDouble (fs : ℚ) 2000))
    (hlen : BufferAllocated d) (hdelay : 0 ≤ d.delay ∧ d.delay ≤ 2000)
    (hw : 0 ≤ d.writePos ∧ d.writePos < d.maxDelaySamples) :
    Machine.Valid fs (Machine.setReadPos d) ∧
      0 ≤ (Machine.setReadPos d).delaySamples ∧
      (Machine.setReadPos d).delaySamples ≤ (Machine.setReadPos d).maxDelaySamples := by
  obtain ⟨hc0, -, hc1⟩ := capacity_range fs h0 h1
  obtain ⟨hN0, hN1⟩ := delay_range fs h0 h1 d.delay hdelay.1 hdelay.2
  have hN : (Machine.setReadPos d).delaySamples
      = Int.floor (toFloat (samplesDouble (fs : ℚ) d.delay)) := by
    show toInt (Int.floor (toFloat (samplesDouble d.sampleFreq d.delay))) = _
    rw [hsf, toInt_of_inRange _ (by omega) (by omega)]
  have hr := machine_readPos_inRange d.writePos (Machine.setReadPos d).delaySamples
    d.maxDelaySamples hw.1 hw.2 (by rw [hN]; exact hN0) (by rw [hN, hmax]; exact hN1)
    (by rw [hmax]; exact hc1)
  refine ⟨⟨hsf, hmax, hlen, hdelay, ⟨hr, hw⟩⟩, by rw [hN]; exact hN0, ?_⟩
  rw [hN]
  show _ ≤ d.maxDelaySamples
  rw [hmax]
  exact hN1

theorem machine_initMembers_maxDelaySamples (fs : Int) (h0 : 0 < fs) (h1 : fs ≤ 16777216)
    (delay feedback mix : ℚ) :
    (Machine.initMembers fs delay feedback mix).maxDelaySamples
      = Int.ceil (samplesDouble (fs : ℚ) 2000) := by
  obtain ⟨hc0, -, hc1⟩ := capacity_range fs h0 h1
  show toInt (Int.ceil (samplesDouble (fs : ℚ) 2000)) = _
  exact toInt_of_inRange _ (by omega) (by omega)

theorem machine_valid_reset (fs : Int) (h0 : 0 < fs) (h1 : fs ≤ 16777216) (d : DelayLine)
    (hsf : d.sampleFreq = (fs : ℚ))
    (hmax : d.maxDelaySamples = Int.ceil (samplesDouble (fs : ℚ) 2000))
    (hdelay : 0 ≤ d.delay ∧ d.delay ≤ 2000) :
    ∃ d0, Machine.reset d = some d0 ∧ Machine.Valid fs d0 ∧ 0 ≤ d0.delaySamples ∧
      d0.delaySamples ≤ d0.maxDelaySamples := by
  obtain ⟨hc0, -, hc1⟩ := capacity_range fs h0 h1
  refine ⟨Machine.setReadPos { d with
      buffer := List.replicate d.maxDelaySamples.toNat 0
      readPos := 0
      writePos := 0 }, by rw [Machine.reset, if_neg (by omega)], ?_⟩
  refine machine_valid_setReadPos fs h0 h1 { d with
      buffer := List.replicate d.maxDelaySamples.toNat 0
      readPos := 0
      writePos := 0 } hsf hmax ?_ hdelay ?_
  · simp only [BufferAllocated, List.length_replicate]
    omega
  · show (0 : Int) ≤ 0 ∧ (0 : Int) < d.maxDelaySamples
    omega

theorem machine_valid_new (fs : Int) (h0 : 0 < fs) (h1 : fs ≤ 16777216) (delay feedback mix : ℚ)
    (hd0 : 0 ≤ delay) (hd1 : delay ≤ 2000) :
    ∃ d0, Machine.new fs delay feedback mix = some d0 ∧ Machine.Valid fs d0 ∧
      0 ≤ d0.delaySamples ∧ d0.delaySamples ≤ d0.maxDelaySamples :=
  machine_valid_reset fs h0 h1 (Machine.initMembers fs delay feedback mix) rfl
    (machine_initMembers_maxDelaySamples fs h0 h1 delay feedback mix) ⟨hd0, hd1⟩

theorem machine_valid_setDelay (fs : Int) (h0 : 0 < fs) (h1 : fs ≤ 16777216) (d : DelayLine)
    (delay : ℚ) (h : Machine.Valid fs d) (hd0 : 0 ≤ delay) (hd1 : delay ≤ 2000) :
    Machine.Valid fs (Machine.setDelay d delay) := by
  obtain ⟨hsf, hmax, hlen, -, hin⟩ := h
  exact (machine_valid_setReadPos fs h0 h1 { d with delay := delay } hsf hmax hlen ⟨hd0, hd1⟩
    hin.2).1

theorem machine_valid_advance (fs : Int) (d : DelayLine) (v : ℚ) (h : Machine.Valid fs d) :
    Machine.Valid fs (advance d v) := by
  obtain ⟨hsf, hmax, hlen, hdelay, hin⟩ := h
  refine ⟨hsf, hmax, ?_, hdelay, cursorsInRange_advance d v hin⟩
  unfold BufferAllocated at hlen ⊢
  simpa [advance] using hlen

theorem machine_processSample_total (fs : Int) (d : DelayLine) (x : ℚ)
    (h : Machine.Valid fs d) :
    ∃ y d', processSample d x = some (y, d') ∧ Machine.Valid fs d' := by
  cases hb : d.bypass with
  | true => exact ⟨x, d, processSample_of_bypass d x hb, h⟩
  | false =>
    exact ⟨_, _, processSample_of_inRange d x hb h.2.2.1 h.2.2.2.2,
      machine_valid_advance fs d _ h⟩

theorem machine_valid_of_reachable (fs : Int) (h0 : 0 < fs) (h1 : fs ≤ 16777216) (d : DelayLine)
    (h : Machine.Reachable fs (fun delay => 0 ≤ delay ∧ delay ≤ 2000) d) :
    Machine.Valid fs d := by
  induction h with
  | construct delay feedback mix d hadm hnew =>
    obtain ⟨d0, hd0, hv, -⟩ := machine_valid_new fs h0 h1 delay feedback mix hadm.1 hadm.2
    rw [hnew] at hd0
    rw [Option.some.inj hd0]
    exact hv
  | reset d d' _ hreset ih =>
    obtain ⟨d0, hd0, hv, -⟩ := machine_valid_reset fs h0 h1 d ih.1 ih.2.1 ih.2.2.2.1
    rw [hreset] at hd0
    rw [Option.some.inj hd0]
    exact hv
  | setDelay d delay _ hadm ih => exact machine_valid_setDelay fs h0 h1 d delay ih hadm.1 hadm.2
  | setFeedback d feedback _ ih => exact ih
  | setMix d mix _ ih => exact ih
  | setBypass d bypass _ ih => exact ih
  | processSample d d' x y _ hp ih =>
    obtain ⟨y', d'', hp', hv⟩ := machine_processSample_total fs d x ih
    rw [hp] at hp'
    have heq : d' = d'' := congrArg Prod.snd (Option.some.inj hp')
    rw [heq]
    exact hv

/-! ## Machine evaluation at particular inputs -/

theorem machine_reset_fields (d : DelayLine) (hM : 0 ≤ d.maxDelaySamples) :
    ∃ d0, Machine.reset d = some d0 ∧ d0.writePos = 0 ∧
      d0.maxDelaySamples = d.maxDelaySamples ∧
      d0.delaySamples = toInt (Int.floor (toFloat (samplesDouble d.sampleFreq d.delay))) ∧
      d0.readPos =
        (if wrapInt (0 - toInt (Int.floor (toFloat (samplesDouble d.sampleFreq d.delay)))) < 0
          then wrapInt (wrapInt (0 - toInt (Int.floor (toFloat (samplesDouble d.sampleFreq d.delay))))
            + d.maxDelaySamples)
          else wrapInt (0 - toInt (Int.floor (toFloat (samplesDouble d.sampleFreq d.delay))))) ∧
      d0.bypass = d.bypass ∧ d0.sampleFreq = d.sampleFreq ∧ d0.delay = d.delay :=
  ⟨Machine.setReadPos { d with
      buffer := List.replicate d.maxDelaySamples.toNat 0
      readPos := 0
      writePos := 0 }, by rw [Machine.reset, if_neg (by omega)], rfl, rfl, rfl, rfl, rfl, rfl, rfl⟩

theorem samplesDouble_high_rate : samplesDouble 16777219 2000 = 33554438 := by
  have hP : toDouble (16777219 * milli) = 4611686843061109 / 274877906944 := by
    have h := roundBinary_eval 52 (16777219 * milli) 14 4611686843061109
      (by rw [milli_eq]; norm_num) (by rw [milli_eq]; norm_num) (by rw [milli_eq]; norm_num)
      (roundHalfEven_eq_of_near _ _ (by rw [milli_eq]; norm_num) (by rw [milli_eq]; norm_num))
    unfold toDouble
    rw [h]
    norm_num
  have hQ := roundBinary_eval 52 (4611686843061109 / 274877906944 * 2000) 25 4503600432676864
    (by norm_num) (by norm_num) (by norm_num)
    (roundHalfEven_eq_of_near _ _ (by norm_num) (by norm_num))
  unfold samplesDouble
  rw [hP]
  unfold toDouble
  rw [hQ]
  norm_num

theorem toFloat_high_rate : toFloat 33554438 = 33554440 := by
  have h := roundBinary_eval 23 33554438 25 8388610 (by norm_num) (by norm_num) (by norm_num)
    (roundHalfEven_tie_odd _ 8388609 (by norm_num) (by decide))
  unfold toFloat
  rw [h]
  norm_num

/-- C1. With `bypassed = true`, `processSample x` returns exactly `x` and the
state after the call is the state before it (every buffer slot, both cursors,
the delay, feedback and mix values); hence a whole run under bypass returns its
inputs and leaves the state, in particular the buffer snapshot, unchanged. -/
theorem bypass_is_identity (d : DelayLine) (hb : d.bypass = true) (x : ℚ) (xs : List ℚ) :
    processSample d x = some (x, d) ∧ processSamples d xs = some (xs, d) ∧
      outputs d xs = some xs := by
  refine ⟨processSample_of_bypass d x hb, processSamples_of_bypass d hb xs, ?_⟩
  simp [outputs, processSamples_of_bypass d hb xs]

/-- Instance of C1 on a line that already holds audio and is then bypassed. -/
theorem bypass_is_identity_witness :
    (setBypass { initMembers 1 1000 0 1 with buffer := [3, 4], maxDelaySamples := 2 } true).bypass
        = true ∧
      (processSample
          (setBypass { initMembers 1 1000 0 1 with buffer := [3, 4], maxDelaySamples := 2 } true) 7
          = some (7,
            setBypass { initMembers 1 1000 0 1 with buffer := [3, 4], maxDelaySamples := 2 } true) ∧
        processSamples
          (setBypass { initMembers 1 1000 0 1 with buffer := [3, 4], maxDelaySamples := 2 } true)
          [5, 6]
          = some ([5, 6],
            setBypass { initMembers 1 1000 0 1 with buffer := [3, 4], maxDelaySamples := 2 } true) ∧
        outputs
          (setBypass { initMembers 1 1000 0 1 with buffer := [3, 4], maxDelaySamples := 2 } true)
          [5, 6] = some [5, 6]) :=
  ⟨rfl, bypass_is_identity _ rfl 7 [5, 6]⟩

/-! ## Integer delay -/

/-- C2. Integer-delay timing: for a sample rate `fs` and an integer
`1 ≤ N ≤ maxDelaySamples = 2 * fs` (which forces `fs > 0`), a line freshly constructed, or reset, with
a delay of exactly `N` samples (so `delayFraction = 0`), feedback gain 0, mix
weight 1 and bypass off answers an input sequence `x` with `y[k] = 0` for
`k < N` and `y[k] = x[k - N]` for `k ≥ N`; the impulse `1, 0, 0, ...` comes out
as 1 at index `N` and 0 at every other index. -/
theorem integer_delay_timing (fs : Int) (N : Nat) (delay : ℚ) (h1 : 1 ≤ N)
    (hN : (N : Int) ≤ 2 * fs) (hdelay : (fs : ℚ) * (1 / 1000) * delay = (N : ℚ)) :
    (∃ d0, DelayLine.new fs delay 0 1 = some d0 ∧ d0.maxDelaySamples = 2 * fs ∧
      d0.delaySamples = (N : Int) ∧ d0.delayFraction = 0 ∧
      (∀ xs : List ℚ, outputs d0 xs =
        some ((List.range xs.length).map fun k => if k < N then 0 else xs.getD (k - N) 0)) ∧
      ∀ len : Nat, outputs d0 (impulse len) =
        some ((List.range (len + 1)).map fun k => if k = N then 1 else 0)) ∧
    ∀ d : DelayLine, d.sampleFreq = (fs : ℚ) → d.maxDelaySamples = 2 * fs → d.delay = delay →
      d.feedback = 0 → d.mix = 1 → d.bypass = false →
      ∃ d0, reset d = some d0 ∧ d0.delaySamples = (N : Int) ∧ d0.delayFraction = 0 ∧
        (∀ xs : List ℚ, outputs d0 xs =
          some ((List.range xs.length).map fun k => if k < N then 0 else xs.getD (k - N) 0)) ∧
        ∀ len : Nat, outputs d0 (impulse len) =
          some ((List.range (len + 1)).map fun k => if k = N then 1 else 0) := by
  have key : ∀ d : DelayLine, d.sampleFreq = (fs : ℚ) → d.maxDelaySamples = 2 * fs →
      d.delay = delay → d.feedback = 0 → d.mix = 1 → d.bypass = false →
      ∃ d0, reset d = some d0 ∧ d0.maxDelaySamples = 2 * fs ∧ d0.delaySamples = (N : Int) ∧
        d0.delayFraction = 0 ∧
        (∀ xs : List ℚ, outputs d0 xs =
          some ((List.range xs.length).map fun k => if k < N then 0 else xs.getD (k - N) 0)) ∧
        ∀ len : Nat, outputs d0 (impulse len) =
          some ((List.range (len + 1)).map fun k => if k = N then 1 else 0) := by
    intro d hsf hmax hd hfb hmix hb
    obtain ⟨d0, hreset, hmax0, hds, hfr, hout⟩ :=
      reset_integer_delay d N h1 (by omega) (by rw [hsf, hd]; exact hdelay) hb
    rw [hfb, hmix] at hout
    have hall : ∀ xs : List ℚ, outputs d0 xs =
        some ((List.range xs.length).map fun k => if k < N then 0 else xs.getD (k - N) 0) := by
      intro xs
      rw [hout xs, echo_without_feedback N h1 xs []]
      rfl
    refine ⟨d0, hreset, by omega, hds, hfr, hall, ?_⟩
    intro len
    rw [hout (impulse len), echo_without_feedback N h1 (impulse len) [], delayed_impulse]
  constructor
  · exact key (initMembers fs delay 0 1) rfl (initMembers_maxDelaySamples fs delay 0 1) rfl rfl
      rfl rfl
  · intro d hsf hmax hd hfb hmix hb
    obtain ⟨d0, h0, -, h2, h3, h4, h5⟩ := key d hsf hmax hd hfb hmix hb
    exact ⟨d0, h0, h2, h3, h4, h5⟩

/-- Instance of C2 at `fs = 2` and a delay of 1500 ms, which is exactly `N = 3` samples. -/
theorem integer_delay_timing_witness :
    (1 ≤ 3 ∧ ((3 : Nat) : Int) ≤ 2 * 2 ∧
      ((2 : Int) : ℚ) * (1 / 1000) * 1500 = ((3 : Nat) : ℚ)) ∧
    ((∃ d0, DelayLine.new 2 1500 0 1 = some d0 ∧ d0.maxDelaySamples = 2 * 2 ∧
      d0.delaySamples = ((3 : Nat) : Int) ∧ d0.delayFraction = 0 ∧
      (∀ xs : List ℚ, outputs d0 xs =
        some ((List.range xs.length).map fun k => if k < 3 then 0 else xs.getD (k - 3) 0)) ∧
      ∀ len : Nat, outputs d0 (impulse len) =
        some ((List.range (len + 1)).map fun k => if k = 3 then 1 else 0)) ∧
    ∀ d : DelayLine, d.sampleFreq = ((2 : Int) : ℚ) → d.maxDelaySamples = 2 * 2 → d.delay = 1500 →
      d.feedback = 0 → d.mix = 1 → d.bypass = false →
      ∃ d0, reset d = some d0 ∧ d0.delaySamples = ((3 : Nat) : Int) ∧ d0.delayFraction = 0 ∧
        (∀ xs : List ℚ, outputs d0 xs =
          some ((List.range xs.length).map fun k => if k < 3 then 0 else xs.getD (k - 3) 0)) ∧
        ∀ len : Nat, outputs d0 (impulse len) =
          some ((List.range (len + 1)).map fun k => if k = 3 then 1 else 0)) :=
  ⟨⟨by decide, by decide, by norm_num⟩,
    integer_delay_timing 2 3 1500 (by decide) (by decide) (by norm_num)⟩


/-! ## Fractional delay -/

/-- C3 (evaluation). At `fs = 2` a delay of 1250 ms is `N + frac = 2 + 1/2`
samples in a buffer of 4 slots. The impulse comes out as `1 - frac = 1/2` at
index `N = 2`, but the output at index `N + 1 = 3` is 0 and not `frac = 1/2`:
with `readPos = 1` the test `readPos - 1 > 0` fails and the previous sample is
taken from slot `maxDelaySamples - 1` instead of slot 0. -/
theorem fractional_delay_second_tap_lost :
    DelayLine.new 2 1250 0 1
        = some ⟨2, 1250, 0, 1, false, 2, 0, 2, 4, 2000, 1 / 2, [0, 0, 0, 0]⟩ ∧
      (DelayLine.new 2 1250 0 1).bind (fun d => outputs d (impulse 4))
        = some [0, 0, 1 / 2, 0, 0] := by
  have hfloor : Int.floor (((2 : Int) : ℚ) * (1 / 1000) * 1250) = 2 := by norm_num
  have hnew : DelayLine.new 2 1250 0 1
      = some ⟨2, 1250, 0, 1, false, 2, 0, 2, 4, 2000, 1 / 2, [0, 0, 0, 0]⟩ := by
    simp only [DelayLine.new, initMembers, reset, setReadPos, hfloor, ceil_two_seconds]
    norm_num
    rfl
  refine ⟨hnew, ?_⟩
  rw [hnew, Option.some_bind]
  simp [outputs, processSamples, processSample, delayedValue, readSlot, writeSlot, impulse]
  norm_num

/-! ## Feedback -/

/-- C4. Feedback decay: for every feedback gain `f` (in particular `0 < f < 1`)
and every integer `1 ≤ N ≤ maxDelaySamples = 2 * fs`, a line freshly
constructed, or reset, with a delay of exactly `N` samples, feedback gain `f`,
mix weight 1 and bypass off answers the impulse `1, 0, 0, ...` of any length
with `f ^ (j - 1)` at every index `j * N`, `j ≥ 1`, and 0 at every index that
is not a positive multiple of `N`. -/
theorem feedback_decay (fs : Int) (N : Nat) (delay f : ℚ) (h1 : 1 ≤ N)
    (hN : (N : Int) ≤ 2 * fs) (hdelay : (fs : ℚ) * (1 / 1000) * delay = (N : ℚ)) :
    (∃ d0, DelayLine.new fs delay f 1 = some d0 ∧ d0.maxDelaySamples = 2 * fs ∧
      d0.delaySamples = (N : Int) ∧ d0.delayFraction = 0 ∧ d0.feedback = f ∧ d0.mix = 1 ∧
      ∀ len : Nat, outputs d0 (impulse len) =
        some ((List.range (len + 1)).map fun k =>
          if N ∣ k ∧ N ≤ k then f ^ (k / N - 1) else 0)) ∧
    ∀ d : DelayLine, d.sampleFreq = (fs : ℚ) → d.maxDelaySamples = 2 * fs → d.delay = delay →
      d.feedback = f → d.mix = 1 → d.bypass = false →
      ∃ d0, reset d = some d0 ∧ d0.delaySamples = (N : Int) ∧ d0.delayFraction = 0 ∧
        ∀ len : Nat, outputs d0 (impulse len) =
          some ((List.range (len + 1)).map fun k =>
            if N ∣ k ∧ N ≤ k then f ^ (k / N - 1) else 0) := by
  have key : ∀ d : DelayLine, d.sampleFreq = (fs : ℚ) → d.maxDelaySamples = 2 * fs →
      d.delay = delay → d.feedback = f → d.mix = 1 → d.bypass = false →
      ∃ d0, reset d = some d0 ∧ d0.maxDelaySamples = 2 * fs ∧ d0.delaySamples = (N : Int) ∧
        d0.delayFraction = 0 ∧
        ∀ len : Nat, outputs d0 (impulse len) =
          some ((List.range (len + 1)).map fun k =>
            if N ∣ k ∧ N ≤ k then f ^ (k / N - 1) else 0) := by
    intro d hsf hmax hd hfb hmix hb
    obtain ⟨d0, hreset, hmax0, hds, hfr, hout⟩ :=
      reset_integer_delay d N h1 (by omega) (by rw [hsf, hd]; exact hdelay) hb
    rw [hfb, hmix] at hout
    refine ⟨d0, hreset, by omega, hds, hfr, ?_⟩
    intro len
    rw [hout (impulse len), echo_of_impulse N f h1 len]
  constructor
  · obtain ⟨d0, h0, h1', h2, h3, h4⟩ :=
      key (initMembers fs delay f 1) rfl (initMembers_maxDelaySamples fs delay f 1) rfl rfl rfl rfl
    obtain ⟨e0, he0, -, -, -, -, -, -, -, -, -, hfb, hmix, -⟩ :=
      reset_fresh (initMembers fs delay f 1)
        (by rw [initMembers_maxDelaySamples]; omega)
    have heq : e0 = d0 := Option.some.inj (he0.symm.trans h0)
    subst heq
    exact ⟨e0, h0, h1', h2, h3, hfb, hmix, h4⟩
  · intro d hsf hmax hd hfb hmix hb
    obtain ⟨d0, h0, -, h2, h3, h4⟩ := key d hsf hmax hd hfb hmix hb
    exact ⟨d0, h0, h2, h3, h4⟩

/-- Instance of C4 at `fs = 2`, a delay of 1000 ms (`N = 2` samples) and feedback `1/2`. -/
theorem feedback_decay_witness :
    (1 ≤ 2 ∧ ((2 : Nat) : Int) ≤ 2 * 2 ∧
      ((2 : Int) : ℚ) * (1 / 1000) * 1000 = ((2 : Nat) : ℚ)) ∧
    ((∃ d0, DelayLine.new 2 1000 (1 / 2) 1 = some d0 ∧ d0.maxDelaySamples = 2 * 2 ∧
      d0.delaySamples = ((2 : Nat) : Int) ∧ d0.delayFraction = 0 ∧ d0.feedback = 1 / 2 ∧
      d0.mix = 1 ∧
      ∀ len : Nat, outputs d0 (impulse len) =
        some ((List.range (len + 1)).map fun k =>
          if 2 ∣ k ∧ 2 ≤ k then (1 / 2 : ℚ) ^ (k / 2 - 1) else 0)) ∧
    ∀ d : DelayLine, d.sampleFreq = ((2 : Int) : ℚ) → d.maxDelaySamples = 2 * 2 → d.delay = 1000 →
      d.feedback = 1 / 2 → d.mix = 1 → d.bypass = false →
      ∃ d0, reset d = some d0 ∧ d0.delaySamples = ((2 : Nat) : Int) ∧ d0.delayFraction = 0 ∧
        ∀ len : Nat, outputs d0 (impulse len) =
          some ((List.range (len + 1)).map fun k =>
            if 2 ∣ k ∧ 2 ≤ k then (1 / 2 : ℚ) ^ (k / 2 - 1) else 0)) :=
  ⟨⟨by decide, by decide, by norm_num⟩,
    feedback_decay 2 2 1000 (1 / 2) (by decide) (by decide) (by norm_num)⟩

/-! ## Reset -/

/-- C6 (evaluation). On the default line (`fs = 44100`, 88200 slots),
`setDelay (5000)` stores `delaySamples = 220500 > maxDelaySamples` and
`readPos = -132300`: nothing is clamped, the single `+= m_maxDelaySamples` of
`setReadPos` does not bring the cursor back into range, and the next
`processSample` indexes the buffer out of range. -/
theorem setDelay_above_ceiling_out_of_range :
    (DelayLine.new 44100 0 0 (1 / 2)).map
        (fun d => ((setDelay d 5000).delay, (setDelay d 5000).delaySamples,
          (setDelay d 5000).maxDelaySamples, (setDelay d 5000).readPos))
        = some (5000, 220500, 88200, -132300) ∧
      (DelayLine.new 44100 0 0 (1 / 2)).bind (fun d => processSample (setDelay d 5000) 1)
        = none := by
  obtain ⟨d0, hnew, -, -, -, hw, hmax, -, -, hsf, -, -, -, hb⟩ :=
    reset_fresh (initMembers 44100 0 0 (1 / 2)) (by rw [initMembers_maxDelaySamples]; decide)
  rw [initMembers_maxDelaySamples] at hmax
  have hsf' : d0.sampleFreq = 44100 := by
    rw [hsf]; simp [initMembers]
  have hb' : d0.bypass = false := by rw [hb]; rfl
  have hfloor : Int.floor ((44100 : ℚ) * (1 / 1000) * 5000) = 220500 := by norm_num
  have hds : (setDelay d0 5000).delaySamples = 220500 := by
    simp only [setDelay, setReadPos, hsf', hfloor]
  have hrp : (setDelay d0 5000).readPos = -132300 := by
    simp only [setDelay, setReadPos, hsf', hfloor, hw, hmax]
    norm_num
  have hmx : (setDelay d0 5000).maxDelaySamples = 88200 := by
    simp only [setDelay, setReadPos, hmax]
    norm_num
  have hbp : (setDelay d0 5000).bypass = false := hb'
  have hdl : (setDelay d0 5000).delay = 5000 := rfl
  change DelayLine.new 44100 0 0 (1 / 2) = some d0 at hnew
  rw [hnew]
  refine ⟨by simp [hds, hrp, hmx, hdl], ?_⟩
  simp [processSample, delayedValue, readSlot, hds, hrp, hbp]

/-! ## Cursor range -/

/-- C7 (counterexample). Under machine arithmetic the line
`DelayLine (16777219, 2000, 0, 0.5)` is constructed with
`maxDelaySamples = 33554438` but `delaySamplesInt = 33554440`: the product
`m_sampleFreq*1e-3*m_delay = 33554438` is narrowed to the `float` `samples`,
where the neighbours are 33554436 and 33554440. So `readPos = -2` right after
construction, with a delay of 2000 ms, and the next `processSample` indexes the
buffer out of range: the cursor range predicate does not hold in every
reachable state. -/
theorem cursor_range_broken_at_high_rate :
    (Machine.new 16777219 2000 0 (1 / 2)).map
        (fun d => (d.maxDelaySamples, d.delaySamples, d.writePos, d.readPos, d.bypass))
        = some (33554438, 33554440, 0, -2, false) ∧
      (Machine.new 16777219 2000 0 (1 / 2)).bind (fun d => processSample d 1) = none ∧
      ¬ ∀ d : DelayLine,
        Machine.Reachable 16777219 (fun delay => 0 ≤ delay ∧ delay ≤ 2000) d → CursorsInRange d := by
  have hmax : (Machine.initMembers 16777219 2000 0 (1 / 2)).maxDelaySamples = 33554438 := by
    show toInt (Int.ceil (samplesDouble ((16777219 : Int) : ℚ) 2000)) = 33554438
    have h : samplesDouble ((16777219 : Int) : ℚ) 2000 = ((33554438 : Int) : ℚ) := by
      rw [show ((16777219 : Int) : ℚ) = 16777219 by norm_num, samplesDouble_high_rate]
      norm_num
    rw [h, Int.ceil_intCast]
    rfl
  obtain ⟨d0, hnew, hw, hmax0, hds, hrp, hb, -, -⟩ :=
    machine_reset_fields (Machine.initMembers 16777219 2000 0 (1 / 2)) (by rw [hmax]; decide)
  change Machine.new 16777219 2000 0 (1 / 2) = some d0 at hnew
  have hfloor : Int.floor (toFloat (samplesDouble
      (Machine.initMembers 16777219 2000 0 (1 / 2)).sampleFreq
      (Machine.initMembers 16777219 2000 0 (1 / 2)).delay)) = 33554440 := by
    show Int.floor (toFloat (samplesDouble ((16777219 : Int) : ℚ) 2000)) = 33554440
    rw [show ((16777219 : Int) : ℚ) = 16777219 by norm_num, samplesDouble_high_rate,
      toFloat_high_rate]
    norm_num
  rw [hfloor] at hds hrp
  rw [hmax] at hmax0 hrp
  have hds' : d0.delaySamples = 33554440 := by rw [hds]; rfl
  have hrp' : d0.readPos = -2 := by rw [hrp]; rfl
  have hb' : d0.bypass = false := by rw [hb]; rfl
  refine ⟨?_, ?_, ?_⟩
  · rw [hnew]
    simp [hmax0, hds', hw, hrp', hb']
  · rw [hnew]
    simp [processSample, delayedValue, readSlot, hds', hrp', hb']
  · intro hall
    have hin := hall d0 (Machine.Reachable.construct 2000 0 (1 / 2) d0 (by norm_num) hnew)
    have h0 := hin.1.1
    rw [hrp'] at h0
    omega

/-- C7 (amended). Cursor range invariant under machine arithmetic, for sample
rates up to `2 ^ 24 = 16777216`: for `0 < fs ≤ 16777216` and delays in
`[0, 2000]` ms, construction succeeds with both cursors in
`[0, maxDelaySamples)`, and in every state reached by the public operations
the cursors are in range and stay in range under `reset`, `setDelay`,
`setFeedback`, `setMix`, `setBypass` and `processSample`; the buffer has
`maxDelaySamples` slots and `processSample` always returns, i.e. every buffer
index it uses is within the buffer. -/
theorem cursor_range_invariant_bounded_rate (fs : Int) (hfs : 0 < fs) (hrate : fs ≤ 16777216) :
    (∀ delay feedback mix : ℚ, 0 ≤ delay → delay ≤ 2000 →
      ∃ d, Machine.new fs delay feedback mix = some d ∧
        Machine.Reachable fs (fun delay => 0 ≤ delay ∧ delay ≤ 2000) d ∧ CursorsInRange d) ∧
    ∀ d : DelayLine, Machine.Reachable fs (fun delay => 0 ≤ delay ∧ delay ≤ 2000) d →
      CursorsInRange d ∧ BufferAllocated d ∧
      (∃ d', Machine.reset d = some d' ∧ CursorsInRange d') ∧
      (∀ delay : ℚ, 0 ≤ delay → delay ≤ 2000 → CursorsInRange (Machine.setDelay d delay)) ∧
      (∀ feedback : ℚ, CursorsInRange (setFeedback d feedback)) ∧
      (∀ mix : ℚ, CursorsInRange (setMix d mix)) ∧
      (∀ bypass : Bool, CursorsInRange (setBypass d bypass)) ∧
      ∀ x : ℚ, ∃ y d', processSample d x = some (y, d') ∧ CursorsInRange d' := by
  constructor
  · intro delay feedback mix h0 h1
    obtain ⟨d, hnew, hv, -⟩ := machine_valid_new fs hfs hrate delay feedback mix h0 h1
    exact ⟨d, hnew, Machine.Reachable.construct delay feedback mix d ⟨h0, h1⟩ hnew, hv.2.2.2.2⟩
  · intro d hd
    have hv := machine_valid_of_reachable fs hfs hrate d hd
    refine ⟨hv.2.2.2.2, hv.2.2.1, ?_, ?_, ?_, ?_, ?_, ?_⟩
    · obtain ⟨d', hreset, hv', -⟩ := machine_valid_reset fs hfs hrate d hv.1 hv.2.1 hv.2.2.2.1
      exact ⟨d', hreset, hv'.2.2.2.2⟩
    · intro delay h0 h1
      exact (machine_valid_setDelay fs hfs hrate d delay hv h0 h1).2.2.2.2
    · intro feedback
      exact hv.2.2.2.2
    · intro mix
      exact hv.2.2.2.2
    · intro bypass
      exact hv.2.2.2.2
    · intro x
      obtain ⟨y, d', hp, hv'⟩ := machine_processSample_total fs d x hv
      exact ⟨y, d', hp, hv'.2.2.2.2⟩

/-- Instance of the amended C7 at the sample rate `fs = 44100`. -/
theorem cursor_range_invariant_bounded_rate_witness :
    ((0 : Int) < 44100 ∧ (44100 : Int) ≤ 16777216) ∧
    ((∀ delay feedback mix : ℚ, 0 ≤ delay → delay ≤ 2000 →
      ∃ d, Machine.new 44100 delay feedback mix = some d ∧
        Machine.Reachable 44100 (fun delay => 0 ≤ delay ∧ delay ≤ 2000) d ∧ CursorsInRange d) ∧
    ∀ d : DelayLine, Machine.Reachable 44100 (fun delay => 0 ≤ delay ∧ delay ≤ 2000) d →
      CursorsInRange d ∧ BufferAllocated d ∧
      (∃ d', Machine.reset d = some d' ∧ CursorsInRange d') ∧
      (∀ delay : ℚ, 0 ≤ delay → delay ≤ 2000 → CursorsInRange (Machine.setDelay d delay)) ∧
      (∀ feedback : ℚ, CursorsInRange (setFeedback d feedback)) ∧
      (∀ mix : ℚ, CursorsInRange (setMix d mix)) ∧
      (∀ bypass : Bool, CursorsInRange (setBypass d bypass)) ∧
      ∀ x : ℚ, ∃ y d', processSample d x = some (y, d') ∧ CursorsInRange d') :=
  ⟨⟨by decide, by decide⟩, cursor_range_invariant_bounded_rate 44100 (by decide) (by decide)⟩

/-! ## Read/write cursor relation -/

/-- C8. Read/write cursor relation: `readPos = (writePos - delaySamplesInt) mod
maxDelaySamples` holds right after construction, after `reset()` and after
every `setDelay` call whenever the resulting state has
`0 ≤ delaySamplesInt ≤ maxDelaySamples` (and the write cursor is in range); and
a non-bypassed `processSample` on an allocated buffer with the write cursor in
range returns and preserves the relation, also when a cursor wraps from
`maxDelaySamples - 1` to 0. -/
theorem cursor_relation (fs : Int) (hfs : 0 < fs) :
    (∀ delay feedback mix : ℚ, ∃ d, DelayLine.new fs delay feedback mix = some d ∧
      (0 ≤ d.delaySamples → d.delaySamples ≤ d.maxDelaySamples → CursorRelation d)) ∧
    (∀ d : DelayLine, 0 < d.maxDelaySamples → ∃ d', reset d = some d' ∧
      (0 ≤ d'.delaySamples → d'.delaySamples ≤ d'.maxDelaySamples → CursorRelation d')) ∧
    (∀ (d : DelayLine) (delay : ℚ), 0 ≤ d.writePos → d.writePos < d.maxDelaySamples →
      0 ≤ (setDelay d delay).delaySamples →
      (setDelay d delay).delaySamples ≤ (setDelay d delay).maxDelaySamples →
      CursorRelation (setDelay d delay)) ∧
    ∀ (d : DelayLine) (x : ℚ), d.bypass = false → BufferAllocated d →
      0 ≤ d.writePos → d.writePos < d.maxDelaySamples → CursorRelation d →
      ∃ y d', processSample d x = some (y, d') ∧ CursorRelation d' := by
  have hreset : ∀ d : DelayLine, 0 < d.maxDelaySamples → ∃ d', reset d = some d' ∧
      (0 ≤ d'.delaySamples → d'.delaySamples ≤ d'.maxDelaySamples → CursorRelation d') := by
    intro d hM
    obtain ⟨d', hd', ht, htr, -⟩ := reset_fresh d hM
    exact ⟨d', hd', fun h0 h1 => cursorRelation_of_trails d' htr ht.2.1 h0 h1⟩
  refine ⟨?_, hreset, ?_, ?_⟩
  · intro delay feedback mix
    exact hreset (initMembers fs delay feedback mix) (by rw [initMembers_maxDelaySamples]; omega)
  · intro d delay hw0 hw1 h0 h1
    exact cursorRelation_of_trails _ (trails_setReadPos { d with delay := delay }) ⟨hw0, hw1⟩ h0 h1
  · intro d x hb hlen hw0 hw1 hrel
    have hM : 0 < d.maxDelaySamples := by omega
    have hin : CursorsInRange d := by
      refine ⟨⟨?_, ?_⟩, hw0, hw1⟩
      · rw [hrel]; exact Int.emod_nonneg _ (by omega)
      · rw [hrel]; exact Int.emod_lt_of_pos _ hM
    exact ⟨_, _, processSample_of_inRange d x hb hlen hin,
      cursorRelation_advance d _ hrel ⟨hw0, hw1⟩⟩

/-- Instance of C8 at the sample rate `fs = 44100`. -/
theorem cursor_relation_witness :
    (0 : Int) < 44100 ∧
    ((∀ delay feedback mix : ℚ, ∃ d, DelayLine.new 44100 delay feedback mix = some d ∧
      (0 ≤ d.delaySamples → d.delaySamples ≤ d.maxDelaySamples → CursorRelation d)) ∧
    (∀ d : DelayLine, 0 < d.maxDelaySamples → ∃ d', reset d = some d' ∧
      (0 ≤ d'.delaySamples → d'.delaySamples ≤ d'.maxDelaySamples → CursorRelation d')) ∧
    (∀ (d : DelayLine) (delay : ℚ), 0 ≤ d.writePos → d.writePos < d.maxDelaySamples →
      0 ≤ (setDelay d delay).delaySamples →
      (setDelay d delay).delaySamples ≤ (setDelay d delay).maxDelaySamples →
      CursorRelation (setDelay d delay)) ∧
    ∀ (d : DelayLine) (x : ℚ), d.bypass = false → BufferAllocated d →
      0 ≤ d.writePos → d.writePos < d.maxDelaySamples → CursorRelation d →
      ∃ y d', processSample d x = some (y, d') ∧ CursorRelation d') :=
  ⟨by decide, cursor_relation 44100 (by decide)⟩

/-! ## Zero delay -/

/-- C9. Zero-delay passthrough: a line constructed with delay 0, feedback 0 and
mix 0 (bypass off) returns every input sequence unchanged, and in the state
after any such run `processSample x` again returns `x`. -/
theorem zero_delay_passthrough (fs : Int) (hfs : 0 < fs) :
    ∃ d0, DelayLine.new fs 0 0 0 = some d0 ∧ d0.bypass = false ∧
      ∀ xs : List ℚ, outputs d0 xs = some xs ∧
        ∃ d1, processSamples d0 xs = some (xs, d1) ∧
          ∀ x : ℚ, ∃ d2, processSample d1 x = some (x, d2) := by
  obtain ⟨d0, hnew, hv, -⟩ := valid_new fs hfs 0 0 0 (le_refl 0) (by norm_num)
  obtain ⟨e0, he0, -, -, -, -, -, hds, -, -, -, -, hmix, hb⟩ :=
    reset_fresh (initMembers fs 0 0 0) (by rw [initMembers_maxDelaySamples]; omega)
  have heq : e0 = d0 := Option.some.inj (he0.symm.trans hnew)
  subst heq
  have hds0 : e0.delaySamples = 0 := by
    rw [hds]; simp [initMembers]
  have hmix0 : e0.mix = 0 := by rw [hmix]; rfl
  have hb0 : e0.bypass = false := by rw [hb]; rfl
  have hstep : ∀ d : DelayLine, Valid fs d → d.delaySamples = 0 → d.mix = 0 → d.bypass = false →
      ∀ x : ℚ, processSample d x = some (x, advance d (x + d.feedback * x)) := by
    intro d hvd hd hm hbd x
    have htap : tapValue d x = x := by simp [tapValue, hd]
    rw [processSample_of_inRange d x hbd hvd.2.2.1 hvd.2.2.2.2, htap, hm]
    simp
  have hrun : ∀ (xs : List ℚ) (d : DelayLine), Valid fs d → d.delaySamples = 0 → d.mix = 0 →
      d.bypass = false → ∃ d1, processSamples d xs = some (xs, d1) ∧ Valid fs d1 ∧
        d1.delaySamples = 0 ∧ d1.mix = 0 ∧ d1.bypass = false := by
    intro xs
    induction xs with
    | nil => intro d hvd hd hm hbd; exact ⟨d, rfl, hvd, hd, hm, hbd⟩
    | cons x xs ih =>
      intro d hvd hd hm hbd
      obtain ⟨d1, hd1, hrest⟩ := ih (advance d (x + d.feedback * x))
        (valid_advance fs d _ hvd) hd hm hbd
      refine ⟨d1, ?_, hrest⟩
      simp [processSamples, hstep d hvd hd hm hbd x, hd1]
  refine ⟨e0, hnew, hb0, ?_⟩
  intro xs
  obtain ⟨d1, hd1, hv1, hds1, hm1, hb1⟩ := hrun xs e0 hv hds0 hmix0 hb0
  refine ⟨by simp [outputs, hd1], d1, hd1, ?_⟩
  intro x
  exact ⟨_, hstep d1 hv1 hds1 hm1 hb1 x⟩

/-- Instance of C9 at the sample rate `fs = 44100`. -/
theorem zero_delay_passthrough_witness :
    (0 : Int) < 44100 ∧
    ∃ d0, DelayLine.new 44100 0 0 0 = some d0 ∧ d0.bypass = false ∧
      ∀ xs : List ℚ, outputs d0 xs = some xs ∧
        ∃ d1, processSamples d0 xs = some (xs, d1) ∧
          ∀ x : ℚ, ∃ d2, processSample d1 x = some (x, d2) :=
  ⟨by decide, zero_delay_passthrough 44100 (by decide)⟩

/-! ## Constructor units -/

/-- C10 (evaluation). Constructing with feedback 50 and mix 50 stores
`feedback = 50` and `mix = 50` unchanged, whereas `setFeedback 50` and
`setMix 50` store `1/2`: the constructor does not divide by 100. -/
theorem constructor_stores_arguments_undivided :
    (DelayLine.new 44100 0 50 50).map (fun d => (d.feedback, d.mix)) = some (50, 50) ∧
      (DelayLine.new 44100 0 50 50).map
        (fun d => ((setFeedback d 50).feedback, (setMix d 50).mix)) = some (1 / 2, 1 / 2) := by
  obtain ⟨d0, hnew, -, -, -, -, -, -, -, -, -, hfb, hmix, -⟩ :=
    reset_fresh (initMembers 44100 0 50 50) (by rw [initMembers_maxDelaySamples]; decide)
  change DelayLine.new 44100 0 50 50 = some d0 at hnew
  have hfb' : d0.feedback = 50 := by rw [hfb]; rfl
  have hmix' : d0.mix = 50 := by rw [hmix]; rfl
  rw [hnew]
  refine ⟨by simp [hfb', hmix'], ?_⟩
  simp only [Option.map_some', setFeedback, setMix]
  norm_num

/-! ## Frame of `setDelay` -/

/-- C11. Frame of `setDelay`: for every state and every delay `ms` (in
particular `ms` in `[0, 2000]`), `setDelay ms` leaves every buffer slot, the
buffer length, `maxDelaySamples`, `writePos`, `feedbackGain`, `mix`, `bypassed`
and `sampleRate` unchanged; the state after the call is the state before it
with at most `delayMs`, `delaySamplesInt`, `delayFraction` and `readPos` replaced. -/
theorem setDelay_frame (d : DelayLine) (ms : ℚ) :
    (setDelay d ms).buffer = d.buffer ∧
      (setDelay d ms).buffer.length = d.buffer.length ∧
      (setDelay d ms).maxDelaySamples = d.maxDelaySamples ∧
      (setDelay d ms).writePos = d.writePos ∧
      (setDelay d ms).feedback = d.feedback ∧
      (setDelay d ms).mix = d.mix ∧
      (setDelay d ms).bypass = d.bypass ∧
      (setDelay d ms).sampleFreq = d.sampleFreq ∧
      setDelay d ms =
        { d with
          delay := (setDelay d ms).delay
          delaySamples := (setDelay d ms).delaySamples
          delayFraction := (setDelay d ms).delayFraction
          readPos := (setDelay d ms).readPos } :=
  ⟨rfl, rfl, rfl, rfl, rfl, rfl, rfl, rfl, rfl⟩

/-! ## Construction with an invalid sample rate -/

/-- C12 (counterexample). The sample rate `fs = 0` is not rejected:
construction succeeds and yields a line with `maxDelaySamples = 0` and an empty
buffer, on which a non-bypassed `processSample` then indexes out of range. -/
theorem zero_sample_rate_accepted :
    (DelayLine.new 0 0 0 (1 / 2)).map
        (fun d => (d.maxDelaySamples, d.buffer, d.delaySamples, d.bypass))
        = some (0, [], 0, false) ∧
      (DelayLine.new 0 0 0 (1 / 2)).bind (fun d => processSample d 1) = none := by
  have hfloor : Int.floor (((0 : Int) : ℚ) * (1 / 1000) * 0) = 0 := by norm_num
  have hnew : DelayLine.new 0 0 0 (1 / 2)
      = some ⟨0, 0, 0, 1 / 2, false, 0, 0, 0, 0, 0, 0, []⟩ := by
    simp only [DelayLine.new, initMembers, reset, setReadPos, hfloor, ceil_two_seconds]
    norm_num
  rw [hnew]
  refine ⟨rfl, ?_⟩
  simp [processSample, delayedValue, writeSlot]

/-- C12 (amended). Every negative sample rate is rejected: for `fs < 0` the
constructor computes `maxDelaySamples = 2 * fs < 0`, the allocation of the
buffer in `reset` fails, and no `DelayLine` is produced. -/
theorem negative_sample_rate_rejected (fs : Int) (hfs : fs < 0) (delay feedback mix : ℚ) :
    (initMembers fs delay feedback mix).maxDelaySamples < 0 ∧
      DelayLine.new fs delay feedback mix = none := by
  have hmax : (initMembers fs delay feedback mix).maxDelaySamples < 0 := by
    rw [initMembers_maxDelaySamples]; omega
  refine ⟨hmax, ?_⟩
  unfold DelayLine.new reset
  rw [if_pos hmax]

/-- Instance of the amended C12 at `fs = -44100`. -/
theorem negative_sample_rate_rejected_witness :
    (-44100 : Int) < 0 ∧
      ((initMembers (-44100) 0 0 (1 / 2)).maxDelaySamples < 0 ∧
        DelayLine.new (-44100) 0 0 (1 / 2) = none) :=
  ⟨by decide, negative_sample_rate_rejected (-44100) (by decide) 0 0 (1 / 2)⟩

/-! ## Idempotence of `setDelay` -/

/-- C13. `setDelay` is idempotent: for every state and every `ms`, the state
after `setDelay ms; setDelay ms` is the state after one `setDelay ms`, and so
is the state after any number `n + 1` of repetitions: `readPos`,
`delaySamplesInt` and `delayFraction` do not drift. -/
theorem setDelay_idempotent (d : DelayLine) (ms : ℚ) :
    setDelay (setDelay d ms) ms = setDelay d ms ∧
      ∀ n : Nat, (fun s => setDelay s ms)^[n + 1] d = setDelay d ms := by
  refine ⟨rfl, ?_⟩
  intro n
  induction n with
  | zero => rfl
  | succ n ih =>
    rw [Function.iterate_succ_apply', ih]
    rfl

/-! ## Interpolated read -/

theorem half_sample_line_constructed :
    DelayLine.new 2 1250 0 1
      = some ⟨2, 1250, 0, 1, false, 2, 0, 2, 4, 2000, 1 / 2, [0, 0, 0, 0]⟩ := by
  have hfloor : Int.floor (((2 : Int) : ℚ) * (1 / 1000) * 1250) = 2 := by norm_num
  simp only [DelayLine.new, initMembers, reset, setReadPos, hfloor, ceil_two_seconds]
  norm_num
  rfl

/-- C14 (evaluation). The line `DelayLine (2, 1250, 0, 1)` (delay 2.5 samples,
4 slots) reaches, after the samples 1, 0, 0, the state with `readPos = 1`,
`delaySamplesInt = 2`, `delayFraction = 1/2` and buffer `[1, 0, 0, 0]`. There
`processSample 0` returns 0, while `mix * out + (1 - mix) * input` with
`out = delayFraction * buffer[(readPos - 1) mod maxDelaySamples]
  + (1 - delayFraction) * buffer[readPos]` is `1/2`: the previous sample is
read from slot `maxDelaySamples - 1 = 3` instead of slot 0. -/
theorem interpolated_read_wrong_at_readPos_one :
    (DelayLine.new 2 1250 0 1).bind (fun d => processSamples d [1, 0, 0])
        = some ([0, 0, 1 / 2], ⟨2, 1250, 0, 1, false, 1, 3, 2, 4, 2000, 1 / 2, [1, 0, 0, 0]⟩) ∧
      processSample ⟨2, 1250, 0, 1, false, 1, 3, 2, 4, 2000, 1 / 2, [1, 0, 0, 0]⟩ 0
        = some (0, ⟨2, 1250, 0, 1, false, 2, 0, 2, 4, 2000, 1 / 2, [1, 0, 0, 0]⟩) ∧
      (1 : ℚ) * ((1 / 2) * ([1, 0, 0, 0] : List ℚ).getD (((1 : Int) - 1) % 4).toNat 0
          + (1 - 1 / 2) * ([1, 0, 0, 0] : List ℚ).getD (1 : Int).toNat 0) + (1 - 1) * 0
        = 1 / 2 := by
  refine ⟨?_, ?_, ?_⟩
  · rw [half_sample_line_constructed, Option.some_bind]
    simp [processSamples, processSample, delayedValue, readSlot, writeSlot]
    norm_num
  · simp [processSample, delayedValue, readSlot, writeSlot]
  · norm_num

/-! ## Write and advance -/

/-- C15. Write and advance: on a non-bypassed state with an allocated buffer
and both cursors in range, `processSample input` returns; with `out` the
delayed, interpolated value computed before the write, it stores
`input + feedbackGain * out` in slot `writePos` (old value), leaves every other
slot and the buffer length unchanged, sets `writePos` and `readPos` each to
`(old value + 1) mod maxDelaySamples`, and leaves `delayMs`, `delaySamplesInt`,
`delayFraction`, `feedbackGain`, `mix`, `bypassed`, the sample rate and
`maxDelaySamples` unchanged. -/
theorem processSample_write_and_advance (d : DelayLine) (input : ℚ) (hb : d.bypass = false)
    (hlen : BufferAllocated d) (hin : CursorsInRange d) :
    ∃ out y d', delayedValue d input = some out ∧ processSample d input = some (y, d') ∧
      y = d.mix * out + (1 - d.mix) * input ∧
      d'.buffer = d.buffer.set d.writePos.toNat (input + d.feedback * out) ∧
      d'.buffer.getD d.writePos.toNat 0 = input + d.feedback * out ∧
      (∀ j : Nat, j ≠ d.writePos.toNat → d'.buffer.getD j 0 = d.buffer.getD j 0) ∧
      d'.buffer.length = d.buffer.length ∧
      d'.writePos = (d.writePos + 1) % d.maxDelaySamples ∧
      d'.readPos = (d.readPos + 1) % d.maxDelaySamples ∧
      d'.delay = d.delay ∧ d'.delaySamples = d.delaySamples ∧
      d'.delayFraction = d.delayFraction ∧ d'.feedback = d.feedback ∧ d'.mix = d.mix ∧
      d'.bypass = d.bypass ∧ d'.sampleFreq = d.sampleFreq ∧
      d'.maxDelaySamples = d.maxDelaySamples := by
  have hlen' : (d.buffer.length : Int) = d.maxDelaySamples := hlen
  obtain ⟨⟨hr0, hr1⟩, hw0, hw1⟩ := hin
  have hwlt : d.writePos.toNat < d.buffer.length := by omega
  refine ⟨tapValue d input, _, _, delayedValue_of_inRange d input hlen ⟨⟨hr0, hr1⟩, hw0, hw1⟩,
    processSample_of_inRange d input hb hlen ⟨⟨hr0, hr1⟩, hw0, hw1⟩, rfl, rfl, ?_, ?_, ?_, ?_, ?_,
    rfl, rfl, rfl, rfl, rfl, rfl, rfl, rfl⟩
  · show (d.buffer.set d.writePos.toNat _).getD d.writePos.toNat 0 = _
    rw [List.getD_eq_getElem?_getD, List.getElem?_set, if_pos rfl, if_pos hwlt]
    rfl
  · intro j hj
    show (d.buffer.set d.writePos.toNat _).getD j 0 = _
    rw [List.getD_eq_getElem?_getD, List.getD_eq_getElem?_getD, List.getElem?_set,
      if_neg (Ne.symm hj)]
  · show (d.buffer.set d.writePos.toNat _).length = _
    rw [List.length_set]
  · exact wrap_eq_emod d.writePos d.maxDelaySamples hw0 hw1
  · exact wrap_eq_emod d.readPos d.maxDelaySamples hr0 hr1

/-- Instance of C15 on the line of `sample_line_constructed`, fed the sample 5. -/
theorem processSample_write_and_advance_witness :
    ((⟨1, 1000, 1 / 2, 1, false, 1, 0, 1, 2, 2000, 0, [0, 0]⟩ : DelayLine).bypass = false ∧
      BufferAllocated ⟨1, 1000, 1 / 2, 1, false, 1, 0, 1, 2, 2000, 0, [0, 0]⟩ ∧
      CursorsInRange ⟨1, 1000, 1 / 2, 1, false, 1, 0, 1, 2, 2000, 0, [0, 0]⟩) ∧
    ∃ out y d',
      delayedValue ⟨1, 1000, 1 / 2, 1, false, 1, 0, 1, 2, 2000, 0, [0, 0]⟩ 5 = some out ∧
      processSample ⟨1, 1000, 1 / 2, 1, false, 1, 0, 1, 2, 2000, 0, [0, 0]⟩ 5 = some (y, d') ∧
      y = (1 : ℚ) * out + (1 - 1) * 5 ∧
      d'.buffer = ([0, 0] : List ℚ).set (0 : Int).toNat (5 + 1 / 2 * out) ∧
      d'.buffer.getD (0 : Int).toNat 0 = 5 + 1 / 2 * out ∧
      (∀ j : Nat, j ≠ (0 : Int).toNat → d'.buffer.getD j 0 = ([0, 0] : List ℚ).getD j 0) ∧
      d'.buffer.length = ([0, 0] : List ℚ).length ∧
      d'.writePos = (0 + 1) % 2 ∧
      d'.readPos = (1 + 1) % 2 ∧
      d'.delay = 1000 ∧ d'.delaySamples = 1 ∧
      d'.delayFraction = 0 ∧ d'.feedback = 1 / 2 ∧ d'.mix = 1 ∧
      d'.bypass = false ∧ d'.sampleFreq = 1 ∧
      d'.maxDelaySamples = 2 :=
  ⟨⟨rfl, rfl, by unfold CursorsInRange; decide⟩,
    processSample_write_and_advance ⟨1, 1000, 1 / 2, 1, false, 1, 0, 1, 2, 2000, 0, [0, 0]⟩ 5 rfl
      rfl (by unfold CursorsInRange; decide)⟩

/-! ## Live delay changes -/

theorem past_sample (hist rest : List ℚ) (x : ℚ) (N : Nat) :
    (if hist.length < N then 0 else (hist.reverse ++ x :: rest).getD (hist.length - N) 0)
      = if N = 0 then x else hist.getD (N - 1) 0 := by
  by_cases h0 : N = 0
  · subst h0
    rw [if_neg (by omega), if_pos rfl, List.getD_eq_getElem?_getD,
      List.getElem?_append_right (by simp)]
    simp
  · rw [if_neg h0]
    by_cases hlt : hist.length < N
    · rw [if_pos hlt, List.getD_eq_getElem?_getD, List.getElem?_eq_none (by omega)]
      rfl
    · rw [if_neg hlt, List.getD_eq_getElem?_getD, List.getD_eq_getElem?_getD,
        List.getElem?_append_left (by simp; omega), List.getElem?_reverse (by omega)]
      congr 2
      omega

theorem exact_samples (fs : Int) (hfs : 0 < fs) (N : Nat) :
    (fs : ℚ) * (1 / 1000) * (1000 * (N : ℚ) / (fs : ℚ)) = (N : ℚ) := by
  have hq : (fs : ℚ) ≠ 0 := by exact_mod_cast (ne_of_gt hfs)
  field_simp
  ring

theorem runCalls_of_tracks (fs : Int) (hfs : 0 < fs) (calls : List Call) :
    ∀ (d : DelayLine) (hist : List ℚ) (N : Nat), Tracks d hist → Trails d → d.bypass = false →
      d.delayFraction = 0 → d.delaySamples = (N : Int) → (N : Int) ≤ 2 * fs → d.feedback = 0 →
      d.mix = 1 → d.sampleFreq = (fs : ℚ) → d.maxDelaySamples = 2 * fs →
      (∀ N' : Nat, Call.delay N' ∈ calls → (N' : Int) ≤ 2 * fs) →
      (runCalls fs d calls).map Prod.fst
        = some (expectedLive (hist.reverse ++ inputsOf calls) N hist.length calls) := by
  induction calls with
  | nil => intro d hist N _ _ _ _ _ _ _ _ _ _ _; rfl
  | cons c cs ih =>
    intro d hist N ht htr hb hfr hN hNle hfb hmix hsf hmax hcalls
    have hrest : ∀ N' : Nat, Call.delay N' ∈ cs → (N' : Int) ≤ 2 * fs :=
      fun N' h => hcalls N' (List.mem_cons_of_mem c h)
    cases c with
    | sample x =>
      have hw := ht.2.1
      have hin : CursorsInRange d := cursorsInRange_of_trails d htr hw (by omega) (by omega)
      have htap : tapValue d x = if N = 0 then x else hist.getD (N - 1) 0 := by
        by_cases h0 : N = 0
        · rw [if_pos h0]
          unfold tapValue
          rw [if_pos (by omega)]
        · rw [if_neg h0, tapValue_of_tracks d hist x ht htr hfr (by omega) (by omega), hN]
          rfl
      have hstep := processSample_of_inRange d x hb ht.1 hin
      have hwritten : x + d.feedback * tapValue d x = x := by rw [hfb]; ring
      have hout : d.mix * tapValue d x + (1 - d.mix) * x = tapValue d x := by rw [hmix]; ring
      rw [hwritten, hout] at hstep
      have hnext := ih (advance d x) (x :: hist) N (tracks_advance d hist x ht)
        (trails_advance d x htr hw (by omega) (by omega)) hb hfr hN hNle hfb hmix hsf hmax hrest
      have hxs : (x :: hist).reverse ++ inputsOf cs = hist.reverse ++ inputsOf (Call.sample x :: cs) := by
        simp [inputsOf]
      rw [hxs] at hnext
      simp only [Option.map_eq_some'] at hnext ⊢
      obtain ⟨⟨ys, d'⟩, hrun, hys⟩ := hnext
      refine ⟨(tapValue d x :: ys, d'), ?_, ?_⟩
      · simp [runCalls, hstep, hrun]
      · simp only at hys
        simp only [expectedLive, hys, htap, List.length_cons]
        rw [← past_sample hist (inputsOf cs) x N]
        rfl
    | delay N' =>
      have hN' : (N' : Int) ≤ 2 * fs := hcalls N' (List.mem_cons_self _ _)
      have hsamples : d.sampleFreq * (1 / 1000) * (1000 * (N' : ℚ) / (fs : ℚ)) = (N' : ℚ) := by
        rw [hsf]; exact exact_samples fs hfs N'
      have hds : (setDelay d (1000 * (N' : ℚ) / (fs : ℚ))).delaySamples = (N' : Int) := by
        show Int.floor (d.sampleFreq * (1 / 1000) * (1000 * (N' : ℚ) / (fs : ℚ))) = (N' : Int)
        rw [hsamples, Int.floor_natCast]
      have hfr' : (setDelay d (1000 * (N' : ℚ) / (fs : ℚ))).delayFraction = 0 := by
        show d.sampleFreq * (1 / 1000) * (1000 * (N' : ℚ) / (fs : ℚ))
          - ((Int.floor (d.sampleFreq * (1 / 1000) * (1000 * (N' : ℚ) / (fs : ℚ))) : Int) : ℚ) = 0
        rw [hsamples, Int.floor_natCast]
        simp
      exact ih (setDelay d (1000 * (N' : ℚ) / (fs : ℚ))) hist N' ht
        (trails_setReadPos { d with delay := 1000 * (N' : ℚ) / (fs : ℚ) }) hb hfr' hds hN' hfb hmix
        hsf hmax hrest

/-- C16. Live delay change preserves in-flight audio: with feedback gain 0,
mix weight 1 and bypass off, start from a line freshly constructed, or reset,
with a delay of `N0` whole samples, and make any sequence of `processSample`
calls interleaved with `setDelay` calls whose delays are whole numbers of
samples up to `maxDelaySamples = 2 * fs` (in particular in
`[1, maxDelaySamples]`). Every call returns, and the output for the sample of
index `k` is `x[k - N]`, `N` being the delay in samples in force at that call
and `x` the whole input (`x[j] = 0` for `j < 0`): a `setDelay` takes effect on
the very next sample and reads the true history. -/
theorem live_delay_change (fs : Int) (N0 : Nat) (calls : List Call) (hfs : 0 < fs)
    (hN0 : (N0 : Int) ≤ 2 * fs) (hcalls : ∀ N : Nat, Call.delay N ∈ calls → (N : Int) ≤ 2 * fs) :
    (∃ d0, DelayLine.new fs (1000 * (N0 : ℚ) / (fs : ℚ)) 0 1 = some d0 ∧
      (runCalls fs d0 calls).map Prod.fst = some (expectedLive (inputsOf calls) N0 0 calls)) ∧
    ∀ d : DelayLine, d.sampleFreq = (fs : ℚ) → d.maxDelaySamples = 2 * fs →
      d.delay = 1000 * (N0 : ℚ) / (fs : ℚ) → d.feedback = 0 → d.mix = 1 → d.bypass = false →
      ∃ d0, reset d = some d0 ∧
        (runCalls fs d0 calls).map Prod.fst = some (expectedLive (inputsOf calls) N0 0 calls) := by
  have key : ∀ d : DelayLine, d.sampleFreq = (fs : ℚ) → d.maxDelaySamples = 2 * fs →
      d.delay = 1000 * (N0 : ℚ) / (fs : ℚ) → d.feedback = 0 → d.mix = 1 → d.bypass = false →
      ∃ d0, reset d = some d0 ∧
        (runCalls fs d0 calls).map Prod.fst = some (expectedLive (inputsOf calls) N0 0 calls) := by
    intro d hsf hmax hdelay hfb hmix hb
    obtain ⟨d0, hreset, ht, htr, -, -, hmax0, hds, hfr, hsf0, -, hfb0, hmix0, hb0⟩ :=
      reset_fresh d (by omega)
    have hsamples : d.sampleFreq * (1 / 1000) * d.delay = (N0 : ℚ) := by
      rw [hsf, hdelay]; exact exact_samples fs hfs N0
    rw [hsamples, Int.floor_natCast] at hds hfr
    have hrun := runCalls_of_tracks fs hfs calls d0 [] N0 ht htr (by rw [hb0, hb])
      (by rw [hfr]; simp) hds hN0 (by rw [hfb0, hfb]) (by rw [hmix0, hmix]) (by rw [hsf0, hsf])
      (by rw [hmax0, hmax]) hcalls
    exact ⟨d0, hreset, by simpa using hrun⟩
  exact ⟨key (initMembers fs (1000 * (N0 : ℚ) / (fs : ℚ)) 0 1) rfl
    (initMembers_maxDelaySamples fs _ 0 1) rfl rfl rfl rfl, key⟩

/-- Instance of C16 at `fs = 2`: a line of delay 1 sample, switched to 3 and then 2 samples
while it plays. -/
theorem live_delay_change_witness :
    ((0 : Int) < 2 ∧ ((1 : Nat) : Int) ≤ 2 * 2 ∧
      ∀ N : Nat, Call.delay N ∈ [Call.sample 1, Call.sample 2, Call.delay 3, Call.sample 3,
        Call.sample 4, Call.delay 2, Call.sample 5] → (N : Int) ≤ 2 * 2) ∧
    ((∃ d0, DelayLine.new 2 (1000 * ((1 : Nat) : ℚ) / ((2 : Int) : ℚ)) 0 1 = some d0 ∧
      (runCalls 2 d0 [Call.sample 1, Call.sample 2, Call.delay 3, Call.sample 3,
          Call.sample 4, Call.delay 2, Call.sample 5]).map Prod.fst
        = some (expectedLive (inputsOf [Call.sample 1, Call.sample 2, Call.delay 3, Call.sample 3,
            Call.sample 4, Call.delay 2, Call.sample 5]) 1 0
          [Call.sample 1, Call.sample 2, Call.delay 3, Call.sample 3,
            Call.sample 4, Call.delay 2, Call.sample 5])) ∧
    ∀ d : DelayLine, d.sampleFreq = ((2 : Int) : ℚ) → d.maxDelaySamples = 2 * 2 →
      d.delay = 1000 * ((1 : Nat) : ℚ) / ((2 : Int) : ℚ) → d.feedback = 0 → d.mix = 1 →
      d.bypass = false →
      ∃ d0, reset d = some d0 ∧
        (runCalls 2 d0 [Call.sample 1, Call.sample 2, Call.delay 3, Call.sample 3,
            Call.sample 4, Call.delay 2, Call.sample 5]).map Prod.fst
          = some (expectedLive (inputsOf [Call.sample 1, Call.sample 2, Call.delay 3,
              Call.sample 3, Call.sample 4, Call.delay 2, Call.sample 5]) 1 0
            [Call.sample 1, Call.sample 2, Call.delay 3, Call.sample 3,
              Call.sample 4, Call.delay 2, Call.sample 5])) :=
  ⟨⟨by decide, by decide, by intro N h; simp at h; omega⟩,
    live_delay_change 2 1 _ (by decide) (by decide) (by intro N h; simp at h; omega)⟩

/-! ## Bounded output -/

theorem abs_getD_le (l : List ℚ) (B : ℚ) (hB : 0 ≤ B) (h : ∀ v ∈ l, |v| ≤ B) (j : Nat) :
    |l.getD j 0| ≤ B := by
  rw [List.getD_eq_getElem?_getD]
  by_cases hj : j < l.length
  · rw [List.getElem?_eq_getElem hj]
    exact h _ (List.getElem_mem hj)
  · rw [List.getElem?_eq_none (by omega)]
    simpa using hB

theorem abs_interpolate_le (q p r B : ℚ) (hq0 : 0 ≤ q) (hq1 : q ≤ 1) (hp : |p| ≤ B)
    (hr : |r| ≤ B) : |q * p + (1 - q) * r| ≤ B := by
  rw [abs_le] at hp hr ⊢
  constructor <;> nlinarith [hp.1, hp.2, hr.1, hr.2]

theorem abs_tapValue_le (d : DelayLine) (x B : ℚ) (hB : 0 ≤ B) (hq0 : 0 ≤ d.delayFraction)
    (hq1 : d.delayFraction ≤ 1) (hx : |x| ≤ B) (hbuf : ∀ v ∈ d.buffer, |v| ≤ B) :
    |tapValue d x| ≤ B := by
  unfold tapValue
  by_cases hz : d.delaySamples = 0
  · rw [if_pos hz]; exact hx
  · rw [if_neg hz]
    apply abs_interpolate_le _ _ _ _ hq0 hq1 (abs_getD_le _ _ hB hbuf _)
    by_cases hc : d.readPos = d.writePos ∧ d.delaySamples < 1
    · rw [if_pos hc]; exact hx
    · rw [if_neg hc]; exact abs_getD_le _ _ hB hbuf _

theorem bounded_step (d : DelayLine) (x M : ℚ) (hf0 : 0 ≤ d.feedback) (hf1 : d.feedback < 1)
    (hm0 : 0 ≤ d.mix) (hm1 : d.mix ≤ 1) (hq0 : 0 ≤ d.delayFraction) (hq1 : d.delayFraction ≤ 1)
    (hM : 0 ≤ M) (hx : |x| ≤ M) (hbuf : ∀ v ∈ d.buffer, |v| ≤ M / (1 - d.feedback)) :
    |d.mix * tapValue d x + (1 - d.mix) * x| ≤ M / (1 - d.feedback) ∧
      ∀ v ∈ (advance d (x + d.feedback * tapValue d x)).buffer, |v| ≤ M / (1 - d.feedback) := by
  have hpos : 0 < 1 - d.feedback := by linarith
  have hMB : M = M / (1 - d.feedback) * (1 - d.feedback) := by
    field_simp
  have hB : 0 ≤ M / (1 - d.feedback) := div_nonneg hM hpos.le
  generalize M / (1 - d.feedback) = B at hMB hB hbuf ⊢
  have hMleB : M ≤ B := by nlinarith
  have htap := abs_tapValue_le d x B hB hq0 hq1 (le_trans hx hMleB) hbuf
  constructor
  · exact abs_interpolate_le _ _ _ _ hm0 hm1 htap (le_trans hx hMleB)
  · intro v hv
    have hv' : v ∈ d.buffer.set d.writePos.toNat (x + d.feedback * tapValue d x) := hv
    rcases List.mem_or_eq_of_mem_set hv' with hmem | heq
    · exact hbuf v hmem
    · rw [heq]
      rw [abs_le] at hx htap ⊢
      constructor <;> nlinarith [hx.1, hx.2, htap.1, htap.2]

theorem bounded_run (M f mix q : ℚ) (hf0 : 0 ≤ f) (hf1 : f < 1) (hm0 : 0 ≤ mix) (hm1 : mix ≤ 1)
    (hq0 : 0 ≤ q) (hq1 : q ≤ 1) (hM : 0 ≤ M) (xs : List ℚ) :
    ∀ d : DelayLine, d.feedback = f → d.mix = mix → d.delayFraction = q → BufferAllocated d →
      CursorsInRange d → (∀ v ∈ d.buffer, |v| ≤ M / (1 - f)) → (∀ x ∈ xs, |x| ≤ M) →
      ∃ ys d', processSamples d xs = some (ys, d') ∧ ys.length = xs.length ∧
        (∀ y ∈ ys, |y| ≤ M / (1 - f)) ∧ (∀ v ∈ d'.buffer, |v| ≤ M / (1 - f)) := by
  induction xs with
  | nil =>
    intro d _ _ _ _ _ hbuf _
    exact ⟨[], d, rfl, rfl, by simp, hbuf⟩
  | cons x xs ih =>
    intro d hf hmix hq hlen hin hbuf hxs
    have hx : |x| ≤ M := hxs x (List.mem_cons_self x xs)
    have hrest : ∀ x' ∈ xs, |x'| ≤ M := fun x' hx' => hxs x' (List.mem_cons_of_mem x hx')
    have hpos : 0 < 1 - f := by linarith
    have hMleB : M ≤ M / (1 - f) := by
      rw [le_div_iff₀ hpos]; nlinarith
    cases hb : d.bypass with
    | true =>
      obtain ⟨ys, d', hrun, hl, hys, hd'⟩ := ih d hf hmix hq hlen hin hbuf hrest
      refine ⟨x :: ys, d', ?_, by simp [hl], ?_, hd'⟩
      · simp [processSamples, processSample_of_bypass d x hb, hrun]
      · intro y hy
        rcases List.mem_cons.mp hy with h | h
        · rw [h]; exact le_trans hx hMleB
        · exact hys y h
    | false =>
      have hstep := bounded_step d x M (by rw [hf]; exact hf0) (by rw [hf]; exact hf1)
        (by rw [hmix]; exact hm0) (by rw [hmix]; exact hm1) (by rw [hq]; exact hq0)
        (by rw [hq]; exact hq1) hM hx (by rw [hf]; exact hbuf)
      rw [hf] at hstep
      obtain ⟨ys, d', hrun, hl, hys, hd'⟩ := ih (advance d (x + f * tapValue d x)) hf hmix hq
        (by have h : (d.buffer.length : Int) = d.maxDelaySamples := hlen
            show (((d.buffer.set d.writePos.toNat _).length : Nat) : Int) = d.maxDelaySamples
            rw [List.length_set]; exact h)
        (cursorsInRange_advance d _ hin) hstep.2 hrest
      refine ⟨(d.mix * tapValue d x + (1 - d.mix) * x) :: ys, d', ?_, by simp [hl], ?_, hd'⟩
      · simp only [processSamples, processSample_of_inRange d x hb hlen hin, Option.some_bind, hf,
          hrun]
      · intro y hy
        rcases List.mem_cons.mp hy with h | h
        · rw [h]; exact hstep.1
        · exact hys y h

/-- C17. Bounded output under valid gains: let the feedback gain `f` satisfy
`0 ≤ f < 1`, the mix lie in `[0, 1]`, `delayFraction` in `[0, 1)` and `M ≥ 0`.
On a state with an allocated buffer and both cursors in range (whatever its
integer delay, in particular `1 ≤ delaySamplesInt ≤ maxDelaySamples`), if every
buffer slot has absolute value at most `M / (1 - f)` and every input has
absolute value at most `M`, then processing any number of samples returns, and
every output and every buffer slot afterwards has absolute value at most
`M / (1 - f)`. A freshly reset buffer satisfies the bound. -/
theorem bounded_output (d : DelayLine) (M : ℚ) (xs : List ℚ) (hf0 : 0 ≤ d.feedback)
    (hf1 : d.feedback < 1) (hm0 : 0 ≤ d.mix) (hm1 : d.mix ≤ 1) (hq0 : 0 ≤ d.delayFraction)
    (hq1 : d.delayFraction < 1) (hM : 0 ≤ M) (hlen : BufferAllocated d) (hin : CursorsInRange d)
    (hbuf : ∀ v ∈ d.buffer, |v| ≤ M / (1 - d.feedback)) (hxs : ∀ x ∈ xs, |x| ≤ M) :
    (∃ ys d', processSamples d xs = some (ys, d') ∧ ys.length = xs.length ∧
      (∀ y ∈ ys, |y| ≤ M / (1 - d.feedback)) ∧
      (∀ v ∈ d'.buffer, |v| ≤ M / (1 - d.feedback))) ∧
    ∀ d0, reset d = some d0 → ∀ v ∈ d0.buffer, |v| ≤ M / (1 - d.feedback) := by
  constructor
  · exact bounded_run M d.feedback d.mix d.delayFraction hf0 hf1 hm0 hm1 hq0 hq1.le hM xs d rfl
      rfl rfl hlen hin hbuf hxs
  · intro d0 hd0 v hv
    have hB : 0 ≤ M / (1 - d.feedback) := div_nonneg hM (by linarith)
    unfold reset at hd0
    split_ifs at hd0
    have hbuf0 : d0.buffer = List.replicate d.maxDelaySamples.toNat 0 := by
      rw [← Option.some.inj hd0]; rfl
    rw [hbuf0] at hv
    rw [List.eq_of_mem_replicate hv]
    simpa using hB

/-- Instance of C17 on the line of `sample_line_constructed` with bound `M = 1`. -/
theorem bounded_output_witness :
    ((0 : ℚ) ≤ 1 / 2 ∧ (1 / 2 : ℚ) < 1 ∧ (0 : ℚ) ≤ 1 ∧ (1 : ℚ) ≤ 1 ∧ (0 : ℚ) ≤ 0 ∧ (0 : ℚ) < 1 ∧
      (0 : ℚ) ≤ 1 ∧
      BufferAllocated ⟨1, 1000, 1 / 2, 1, false, 1, 0, 1, 2, 2000, 0, [0, 0]⟩ ∧
      CursorsInRange ⟨1, 1000, 1 / 2, 1, false, 1, 0, 1, 2, 2000, 0, [0, 0]⟩ ∧
      (∀ v ∈ ([0, 0] : List ℚ), |v| ≤ 1 / (1 - 1 / 2)) ∧
      ∀ x ∈ ([1, -1, 1 / 2] : List ℚ), |x| ≤ 1) ∧
    ((∃ ys d',
        processSamples ⟨1, 1000, 1 / 2, 1, false, 1, 0, 1, 2, 2000, 0, [0, 0]⟩ [1, -1, 1 / 2]
          = some (ys, d') ∧
        ys.length = ([1, -1, 1 / 2] : List ℚ).length ∧
        (∀ y ∈ ys, |y| ≤ (1 : ℚ) / (1 - 1 / 2)) ∧
        (∀ v ∈ d'.buffer, |v| ≤ (1 : ℚ) / (1 - 1 / 2))) ∧
      ∀ d0, reset ⟨1, 1000, 1 / 2, 1, false, 1, 0, 1, 2, 2000, 0, [0, 0]⟩ = some d0 →
        ∀ v ∈ d0.buffer, |v| ≤ (1 : ℚ) / (1 - 1 / 2)) :=
  ⟨⟨by norm_num, by norm_num, by norm_num, le_refl 1, le_refl 0, by norm_num, by norm_num, rfl,
      by unfold CursorsInRange; decide,
      by intro v hv; simp at hv; subst hv; norm_num,
      by
        intro x hx
        simp at hx
        rcases hx with h | h | h <;> subst h <;> norm_num [abs_le]⟩,
    bounded_output ⟨1, 1000, 1 / 2, 1, false, 1, 0, 1, 2, 2000, 0, [0, 0]⟩ 1 [1, -1, 1 / 2]
      (by norm_num) (by norm_num) (by norm_num) (le_refl 1) (le_refl 0) (by norm_num)
      (by norm_num) rfl (by unfold CursorsInRange; decide)
      (by intro v hv; simp at hv; subst hv; norm_num)
      (by
        intro x hx
        simp at hx
        rcases hx with h | h | h <;> subst h <;> norm_num [abs_le])⟩

/-! ## Delays below one sample -/

/-- C18. Sub-sample delays are ignored: on a non-bypassed state with
`delaySamplesInt = 0` (any `delayFraction`, mix, feedback gain and buffer
content, write cursor inside the buffer), `processSample input` returns
exactly `input`, writes `input * (1 + feedbackGain)` to slot `writePos` and
advances the cursors; the value `out` is `input` itself, no buffer slot is read. -/
theorem sub_sample_delay_ignored (d : DelayLine) (input : ℚ) (hb : d.bypass = false)
    (hN : d.delaySamples = 0) (hw0 : 0 ≤ d.writePos) (hw1 : d.writePos < (d.buffer.length : Int)) :
    delayedValue d input = some input ∧
      processSample d input =
        some (input,
          { d with
            buffer := d.buffer.set d.writePos.toNat (input * (1 + d.feedback))
            writePos := if d.writePos + 1 ≥ d.maxDelaySamples then 0 else d.writePos + 1
            readPos := if d.readPos + 1 ≥ d.maxDelaySamples then 0 else d.readPos + 1 }) := by
  have hdv : delayedValue d input = some input := by
    unfold delayedValue
    rw [if_pos hN]
  refine ⟨hdv, ?_⟩
  unfold processSample
  rw [if_neg (by simp [hb]), hdv, Option.some_bind, writeSlot_of_inRange _ _ _ hw0 hw1,
    Option.some_bind]
  have h1 : d.mix * input + (1 - d.mix) * input = input := by ring
  have h2 : input + d.feedback * input = input * (1 + d.feedback) := by ring
  rw [h1, h2]

/-- Instance of C18 on a line whose delay is half a sample (`fs = 1`, 500 ms). -/
theorem sub_sample_delay_ignored_witness :
    ((⟨1, 500, 1 / 4, 1, false, 0, 0, 0, 2, 2000, 1 / 2, [7, 9]⟩ : DelayLine).bypass = false ∧
      (⟨1, 500, 1 / 4, 1, false, 0, 0, 0, 2, 2000, 1 / 2, [7, 9]⟩ : DelayLine).delaySamples = 0 ∧
      (0 : Int) ≤ (⟨1, 500, 1 / 4, 1, false, 0, 0, 0, 2, 2000, 1 / 2, [7, 9]⟩ : DelayLine).writePos ∧
      (⟨1, 500, 1 / 4, 1, false, 0, 0, 0, 2, 2000, 1 / 2, [7, 9]⟩ : DelayLine).writePos
        < (([7, 9] : List ℚ).length : Int)) ∧
    (delayedValue ⟨1, 500, 1 / 4, 1, false, 0, 0, 0, 2, 2000, 1 / 2, [7, 9]⟩ 3 = some 3 ∧
      processSample ⟨1, 500, 1 / 4, 1, false, 0, 0, 0, 2, 2000, 1 / 2, [7, 9]⟩ 3 =
        some (3,
          { (⟨1, 500, 1 / 4, 1, false, 0, 0, 0, 2, 2000, 1 / 2, [7, 9]⟩ : DelayLine) with
            buffer := ([7, 9] : List ℚ).set (0 : Int).toNat (3 * (1 + 1 / 4))
            writePos := if (0 : Int) + 1 ≥ 2 then 0 else 0 + 1
            readPos := if (0 : Int) + 1 ≥ 2 then 0 else 0 + 1 })) :=
  ⟨⟨rfl, rfl, by decide, by decide⟩,
    sub_sample_delay_ignored ⟨1, 500, 1 / 4, 1, false, 0, 0, 0, 2, 2000, 1 / 2, [7, 9]⟩ 3 rfl rfl
      (by decide) (by decide)⟩

/-! ## The override for delays below one sample -/

theorem channelAgrees_setParameter (p : StereoDelayProcessor) (param : Int) (val : ℚ)
    (h0 : ChannelAgrees p p.delayChannel0) (h1 : ChannelAgrees p p.delayChannel1) :
    ChannelAgrees (p.setParameter param val) (p.setParameter param val).delayChannel0 ∧
      ChannelAgrees (p.setParameter param val) (p.setParameter param val).delayChannel1 := by
  unfold ChannelAgrees StereoDelayProcessor.getParameter at h0 h1 ⊢
  simp only [DELAY, FEEDBACK, MIX, BYPASS] at h0 h1 ⊢
  norm_num at h0 h1 ⊢
  unfold StereoDelayProcessor.setParameter
  simp only [DELAY, FEEDBACK, MIX, BYPASS]
  obtain ⟨a0, b0, c0, e0⟩ := h0
  obtain ⟨a1, b1, c1, e1⟩ := h1
  split_ifs <;>
    simp_all [setDelay, setReadPos, setFeedback, setMix, setBypass]

theorem parametersAgree_setParameter (p : StereoDelayProcessor) (param : Int) (val : ℚ)
    (h : ParametersAgree p) : ParametersAgree (p.setParameter param val) := by
  obtain ⟨h0, h1, hd, hf, hm, hb⟩ := h
  obtain ⟨g0, g1⟩ := channelAgrees_setParameter p param val h0 h1
  refine ⟨g0, g1, ?_⟩
  unfold StereoDelayProcessor.setParameter
  split_ifs <;>
    simp_all [setDelay, setReadPos, setFeedback, setMix, setBypass]

/-- C20. Processor/engine parameter agreement: the processor can be
constructed, and immediately after construction and after any sequence of
`setParameter` calls both `DelayLine` channels hold the same parameters, which
agree with `getParameter`: engine `delayMs = getParameter (DELAY)`, engine
`feedbackGain = getParameter (FEEDBACK) / 100`, engine
`mix = getParameter (MIX) / 100` and engine `bypassed` iff
`getParameter (BYPASS) != 0`; and `getParameter (p)` after `setParameter (p, v)`
returns `v` for `DELAY`, `FEEDBACK` and `MIX`. -/
theorem processor_engine_agreement :
    ∃ p0, StereoDelayProcessor.new = some p0 ∧ ParametersAgree p0 ∧
      (∀ calls : List (Int × ℚ),
        ParametersAgree (calls.foldl (fun p c => p.setParameter c.1 c.2) p0)) ∧
      ∀ (p : StereoDelayProcessor) (v : ℚ),
        (p.setParameter DELAY v).getParameter DELAY = v ∧
        (p.setParameter FEEDBACK v).getParameter FEEDBACK = v ∧
        (p.setParameter MIX v).getParameter MIX = v := by
  obtain ⟨c, hnew, -, -, -, -, -, -, -, -, hdelay, hfb, hmix, hb⟩ :=
    reset_fresh (initMembers 44100 0 0 (1 / 2)) (by rw [initMembers_maxDelaySamples]; decide)
  change DelayLine.new 44100 0 0 (1 / 2) = some c at hnew
  have hdelay' : c.delay = 0 := by rw [hdelay]; rfl
  have hfb' : c.feedback = 0 := by rw [hfb]; rfl
  have hmix' : c.mix = 1 / 2 := by rw [hmix]; rfl
  have hb' : c.bypass = false := by rw [hb]; rfl
  have hch : ChannelAgrees ⟨4, 0, 0, 50, false, c, c⟩ c := by
    unfold ChannelAgrees StereoDelayProcessor.getParameter
    simp only [DELAY, FEEDBACK, MIX, BYPASS]
    norm_num [hdelay', hfb', hmix', hb']
  have hp0 : ParametersAgree ⟨4, 0, 0, 50, false, c, c⟩ := ⟨hch, hch, rfl, rfl, rfl, rfl⟩
  refine ⟨⟨4, 0, 0, 50, false, c, c⟩, ?_, hp0, ?_, ?_⟩
  · unfold StereoDelayProcessor.new
    rw [hnew]
    rfl
  · intro calls
    have hall : ∀ (cs : List (Int × ℚ)) (p : StereoDelayProcessor), ParametersAgree p →
        ParametersAgree (cs.foldl (fun p c => p.setParameter c.1 c.2) p) := by
      intro cs
      induction cs with
      | nil => intro p hp; exact hp
      | cons a cs ih =>
        intro p hp
        exact ih _ (parametersAgree_setParameter p a.1 a.2 hp)
    exact hall calls _ hp0
  · intro p v
    unfold StereoDelayProcessor.setParameter StereoDelayProcessor.getParameter
    simp [DELAY, FEEDBACK, MIX]

end StereoDelay
